import Mathlib

/-!
Shallow embedding of the `srchive` repository (src/ingest_data.py, src/app.py)
and proofs of the spec claims about it.

External collaborators (MongoDB metadata store, Pinecone vector index, the
embedding model, HTTP endpoints) are modelled as explicit data:
* the Metadata Store is a `List Doc` in natural store order;
* the Vector Index is a `List (String × Vec)` with `Vec` an opaque payload;
* network responses are passed in as function/list parameters.

Timestamps (`datetime.now(timezone.utc)`) are modelled by a monotone `Nat`
clock threaded through the ingestion state; similarity scores (floats the
program only compares) are modelled as `Int`.
-/

namespace Srchive

/-- The embedding output; the program treats vectors opaquely (encode,
upsert, query), so the payload type is abstract. -/
abbrev Vec := Nat

/-- The `type` field of a paper document: the code writes exactly the two
strings `"recent"` and `"classic"`. -/
inductive PaperType where
  | recent : PaperType
  | classic : PaperType
deriving DecidableEq, Repr

/-- A document of the MongoDB collection `arxiv_db.papers`: `_id` plus the
fields written by the `$set` of both ingestion modes. -/
structure Doc where
  _id : String
  title : String
  summary : String
  authors : String
  pdf_url : String
  ingested_at : Nat
  type : PaperType
deriving DecidableEq, Repr

/-- `collection.find({"type": {"$ne": "classic"}})`'s filter predicate. -/
def nonClassic (d : Doc) : Bool := d.type ≠ PaperType.classic

/-- `.sort("ingested_at", 1)`: ascending comparison key used by the
retention query (MongoDB sorts the filtered set by `ingested_at`). -/
def leIngested (a b : Doc) : Prop := a.ingested_at ≤ b.ingested_at

instance : DecidableRel leIngested := fun a b => Nat.decLe a.ingested_at b.ingested_at

instance : IsTotal Doc leIngested := ⟨fun a b => Nat.le_total a.ingested_at b.ingested_at⟩

instance : IsTrans Doc leIngested := ⟨fun _ _ _ h₁ h₂ => Nat.le_trans h₁ h₂⟩

/-- `cleanup_old_items`' selection query:
`collection.find({"type": {"$ne": "classic"}}).sort("ingested_at", 1).limit(current_count - max_items)`,
guarded by `current_count > max_items`; the external store's sort is a
stable sort on the `ingested_at` key. -/
def docs_to_delete (c : List Doc) (max_items : Nat) : List Doc :=
  if c.length > max_items then
    ((c.filter nonClassic).insertionSort leIngested).take (c.length - max_items)
  else []

/-- `index.delete(ids=batch)`: Pinecone removes every vector whose id is in
the batch. -/
def indexDelete (idx : List (String × Vec)) (ids : List String) : List (String × Vec) :=
  idx.filter (fun p => ¬ p.1 ∈ ids)

/-- The Pinecone deletion loop
`for i in range(0, len(delete_ids), 1000): index.delete(ids=delete_ids[i:i+1000])`:
the slice `delete_ids[i:i+1000]` for `i = 0, 1000, 2000, ...` is exactly
`take 1000` of the list followed by the loop on `drop 1000` of it. -/
def pineconeDeleteBatches (idx : List (String × Vec)) (ids : List String) :
    List (String × Vec) :=
  if ids.isEmpty then idx
  else pineconeDeleteBatches (indexDelete idx (ids.take 1000)) (ids.drop 1000)
termination_by ids.length
decreasing_by
  simp only [List.length_drop]
  have hne : ids ≠ [] := by
    intro h
    simp [h] at *
  have hpos : 0 < ids.length := List.length_pos.mpr hne
  omega

/-- `collection.delete_many({"_id": {"$in": delete_ids}})`. -/
def mongoDeleteMany (c : List Doc) (ids : List String) : List Doc :=
  c.filter (fun d => ¬ d._id ∈ ids)

/-- `cleanup_old_items(collection, index, max_items)` from src/ingest_data.py:
returns the metadata store and vector index after the run (prints and tqdm
bars have no store effect). -/
def cleanup_old_items (c : List Doc) (idx : List (String × Vec)) (max_items : Nat) :
    List Doc × List (String × Vec) :=
  if c.length > max_items then
    let delete_ids := (docs_to_delete c max_items).map Doc._id
    if delete_ids ≠ [] then
      (mongoDeleteMany c delete_ids, pineconeDeleteBatches idx delete_ids)
    else
      (c, idx)
  else
    (c, idx)

/-- Deleting two id-lists in sequence deletes their union. -/
theorem indexDelete_indexDelete (idx : List (String × Vec)) (l₁ l₂ : List String) :
    indexDelete (indexDelete idx l₁) l₂ = indexDelete idx (l₁ ++ l₂) := by
  simp only [indexDelete, List.filter_filter]
  apply List.filter_congr
  intro p _
  simp only [List.mem_append, not_or, Bool.decide_and, decide_not]
  exact Bool.and_comm _ _

/-- The chunked Pinecone deletion loop removes exactly the vectors whose id
occurs anywhere in `ids`. -/
theorem pineconeDeleteBatches_eq_indexDelete :
    ∀ (n : Nat) (ids : List String) (idx : List (String × Vec)), ids.length ≤ n →
      pineconeDeleteBatches idx ids = indexDelete idx ids := by
  intro n
  induction n with
  | zero =>
      intro ids idx h
      have hnil : ids = [] := List.eq_nil_of_length_eq_zero (Nat.le_zero.mp h)
      subst hnil
      rw [pineconeDeleteBatches]
      simp [indexDelete]
  | succ n ih =>
      intro ids idx h
      rw [pineconeDeleteBatches]
      by_cases he : ids.isEmpty
      · have hnil : ids = [] := by simpa [List.isEmpty_iff] using he
        subst hnil
        simp [indexDelete]
      · rw [if_neg he]
        have hne : ids ≠ [] := by simpa [List.isEmpty_iff] using he
        have hlen : (ids.drop 1000).length ≤ n := by
          have hpos : 0 < ids.length := List.length_pos.mpr hne
          simp only [List.length_drop]
          omega
        rw [ih (ids.drop 1000) (indexDelete idx (ids.take 1000)) hlen]
        rw [indexDelete_indexDelete, List.take_append_drop]

/-- Every run deletes exactly the union of the chunks (with no length bound). -/
theorem pineconeDeleteBatches_eq (idx : List (String × Vec)) (ids : List String) :
    pineconeDeleteBatches idx ids = indexDelete idx ids :=
  pineconeDeleteBatches_eq_indexDelete ids.length ids idx (Nat.le_refl _)

/-- Every selected document passes the `type != classic` filter. -/
theorem mem_docs_to_delete_nonClassic {c : List Doc} {max_items : Nat} {d : Doc}
    (hd : d ∈ docs_to_delete c max_items) : d.type ≠ PaperType.classic := by
  unfold docs_to_delete at hd
  by_cases hc : c.length > max_items
  · simp only [hc, if_true] at hd
    have hmem : d ∈ (c.filter nonClassic).insertionSort leIngested :=
      List.mem_of_mem_take hd
    have hmem' : d ∈ c.filter nonClassic := (List.mem_insertionSort leIngested).mp hmem
    have := (List.mem_filter.mp hmem').2
    simpa [nonClassic] using this
  · simp [hc] at hd

/-- An empty selection makes the run a no-op on both stores. -/
theorem cleanup_old_items_noop {c : List Doc} {idx : List (String × Vec)} {max_items : Nat}
    (hsel : docs_to_delete c max_items = []) :
    cleanup_old_items c idx max_items = (c, idx) := by
  unfold cleanup_old_items
  by_cases hc : c.length > max_items
  · simp [hc, hsel]
  · simp [hc]

/-- C1: for every run of the Retention Controller (`cleanup_old_items`), no
document with `type = classic` is ever selected for deletion, regardless of
its `ingested_at` age or the cap value; and when the selection set is empty
the run is a no-op (both stores are returned unchanged, no failure). -/
theorem cleanup_old_items_protects_classics (c : List Doc) (idx : List (String × Vec))
    (max_items : Nat) :
    (∀ d ∈ docs_to_delete c max_items, d.type ≠ PaperType.classic) ∧
    (docs_to_delete c max_items = [] →
      cleanup_old_items c idx max_items = (c, idx)) :=
  ⟨fun _ hd => mem_docs_to_delete_nonClassic hd, fun hsel => cleanup_old_items_noop hsel⟩

/-- A concrete empty-selection run: one classic document over a cap of zero;
the selection is empty and the run leaves both stores untouched. -/
theorem cleanup_old_items_noop_witness :
    docs_to_delete [⟨"1706.03762", "t", "s", "a", "u", 5, PaperType.classic⟩] 0 = [] ∧
    cleanup_old_items [⟨"1706.03762", "t", "s", "a", "u", 5, PaperType.classic⟩]
        [("1706.03762", 7)] 0 =
      ([⟨"1706.03762", "t", "s", "a", "u", 5, PaperType.classic⟩], [("1706.03762", 7)]) :=
  ⟨by decide,
    (cleanup_old_items_protects_classics
      [⟨"1706.03762", "t", "s", "a", "u", 5, PaperType.classic⟩]
      [("1706.03762", 7)] 0).2 (by decide)⟩

/-- Filtering with a negated predicate keeps exactly the complement. -/
theorem length_filter_not_eq {α : Type} (p : α → Bool) (l : List α) :
    (l.filter (fun a => !(p a))).length = l.length - (l.filter p).length := by
  have h := List.length_eq_countP_add_countP p l
  have h2 : l.countP (fun a => decide (¬ p a = true)) =
      (l.filter (fun a => !(p a))).length := by
    rw [List.countP_eq_length_filter]
    have hfc : List.filter (fun a => decide (¬ p a = true)) l =
        List.filter (fun a => !(p a)) l :=
      List.filter_congr (fun a _ => by simp)
    rw [hfc]
  rw [List.countP_eq_length_filter, h2] at h
  omega

/-- Unfolding of a run that actually deletes: both stores are filtered by the
selected id list. -/
theorem cleanup_old_items_eq_of_sel {c : List Doc} {idx : List (String × Vec)}
    {max_items : Nat} (hc : c.length > max_items)
    (hne : (docs_to_delete c max_items).map Doc._id ≠ []) :
    cleanup_old_items c idx max_items =
      (c.filter (fun d => ¬ d._id ∈ (docs_to_delete c max_items).map Doc._id),
       indexDelete idx ((docs_to_delete c max_items).map Doc._id)) := by
  unfold cleanup_old_items
  simp only [hc, if_true, hne, if_neg, mongoDeleteMany]
  rw [if_pos hne, pineconeDeleteBatches_eq]

/-- Each document of the selection contributes to the count of documents
whose id sits in the selection's id list, so that count is at least the
excess over the cap (when the non-classic pool is large enough). -/
theorem excess_le_countP_delete_ids (c : List Doc) (max_items : Nat)
    (hc : c.length > max_items)
    (hsize : c.length - max_items ≤ (c.filter nonClassic).length) :
    c.length - max_items ≤
      c.countP (fun d => decide (d._id ∈ (docs_to_delete c max_items).map Doc._id)) := by
  have hseldef : docs_to_delete c max_items =
      ((c.filter nonClassic).insertionSort leIngested).take (c.length - max_items) := by
    simp [docs_to_delete, hc]
  have hlensel : (docs_to_delete c max_items).length = c.length - max_items := by
    rw [hseldef, List.length_take, List.length_insertionSort]
    exact min_eq_left hsize
  have h1 : (docs_to_delete c max_items).countP
      (fun d => decide (d._id ∈ (docs_to_delete c max_items).map Doc._id)) =
      (docs_to_delete c max_items).length := by
    apply List.countP_eq_length.mpr
    intro d hd
    simpa using ⟨d, hd, rfl⟩
  have h2 : (docs_to_delete c max_items).countP
        (fun d => decide (d._id ∈ (docs_to_delete c max_items).map Doc._id)) ≤
      ((c.filter nonClassic).insertionSort leIngested).countP
        (fun d => decide (d._id ∈ (docs_to_delete c max_items).map Doc._id)) := by
    rw [hseldef]
    exact List.Sublist.countP_le _ (List.take_sublist _ _)
  have h3 : ((c.filter nonClassic).insertionSort leIngested).countP
        (fun d => decide (d._id ∈ (docs_to_delete c max_items).map Doc._id)) =
      (c.filter nonClassic).countP
        (fun d => decide (d._id ∈ (docs_to_delete c max_items).map Doc._id)) :=
    (List.perm_insertionSort leIngested _).countP_eq _
  have h4 : (c.filter nonClassic).countP
        (fun d => decide (d._id ∈ (docs_to_delete c max_items).map Doc._id)) ≤
      c.countP (fun d => decide (d._id ∈ (docs_to_delete c max_items).map Doc._id)) :=
    List.Sublist.countP_le _ (List.filter_sublist c)
  omega

/-- `cleanup_old_items` either reaches the cap or empties the non-classic
pool (for any store, index and cap). -/
theorem cleanup_old_items_converges (c : List Doc) (idx : List (String × Vec))
    (max_items : Nat) :
    (cleanup_old_items c idx max_items).1.length ≤ max_items ∨
      (cleanup_old_items c idx max_items).1.countP nonClassic = 0 := by
  by_cases hc : c.length > max_items
  · by_cases hne : (docs_to_delete c max_items).map Doc._id ≠ []
    · rw [cleanup_old_items_eq_of_sel hc hne]
      by_cases hsize : (c.filter nonClassic).length ≤ c.length - max_items
      · right
        apply List.countP_eq_zero.mpr
        intro d hd
        have hmem := List.mem_filter.mp hd
        have hnotin : ¬ d._id ∈ (docs_to_delete c max_items).map Doc._id := by
          simpa using hmem.2
        intro hnc
        have hdf : d ∈ c.filter nonClassic := List.mem_filter.mpr ⟨hmem.1, hnc⟩
        have hds : d ∈ (c.filter nonClassic).insertionSort leIngested :=
          (List.mem_insertionSort leIngested).mpr hdf
        have htake : ((c.filter nonClassic).insertionSort leIngested).take
            (c.length - max_items) = (c.filter nonClassic).insertionSort leIngested :=
          List.take_of_length_le (by rw [List.length_insertionSort]; exact hsize)
        have hdsel : d ∈ docs_to_delete c max_items := by
          rw [docs_to_delete, if_pos hc, htake]
          exact hds
        exact hnotin (List.mem_map_of_mem Doc._id hdsel)
      · left
        have hge := excess_le_countP_delete_ids c max_items hc (by omega)
        rw [List.countP_eq_length_filter] at hge
        simp only [decide_not]
        rw [length_filter_not_eq
          (fun d => decide (d._id ∈ (docs_to_delete c max_items).map Doc._id)) c]
        omega
    · rw [not_ne_iff] at hne
      have hsel : docs_to_delete c max_items = [] := by
        cases h : docs_to_delete c max_items with
        | nil => rfl
        | cons a l => rw [h] at hne; simp at hne
      rw [cleanup_old_items_noop hsel]
      right
      have hk : 0 < c.length - max_items := by omega
      have : ((c.filter nonClassic).insertionSort leIngested).take
          (c.length - max_items) = [] := by
        rw [docs_to_delete, if_pos hc] at hsel
        exact hsel
      have hnil : (c.filter nonClassic).insertionSort leIngested = [] := by
        rcases List.take_eq_nil_iff.mp this with h | h
        · omega
        · exact h
      have hfil : c.filter nonClassic = [] := by
        have hperm := List.perm_insertionSort leIngested (c.filter nonClassic)
        rw [hnil] at hperm
        exact (List.Perm.nil_eq hperm).symm
      rw [List.countP_eq_length_filter, hfil]
      rfl
  · rw [cleanup_old_items_noop (by simp [docs_to_delete, hc])]
    left
    show c.length ≤ max_items
    omega

/-- C2: after the Retention Controller runs to completion, either the total
document count is at most `max_items` or no non-classic documents remain;
and in the 30,050-document / 3,000-classic / cap-30,000 scenario (with
distinct ids) exactly the 50 oldest non-classic documents are selected and
deleted from both stores, leaving a final count of 30,000. -/
theorem cleanup_old_items_cap_and_scenario (c : List Doc) (idx : List (String × Vec))
    (max_items : Nat) :
    ((cleanup_old_items c idx max_items).1.length ≤ max_items ∨
      (cleanup_old_items c idx max_items).1.countP nonClassic = 0) ∧
    (c.length = 30050 →
     c.countP (fun d => decide (d.type = PaperType.classic)) = 3000 →
     (c.map Doc._id).Nodup → max_items = 30000 →
      (docs_to_delete c max_items).length = 50 ∧
      (∀ d ∈ docs_to_delete c max_items, d.type ≠ PaperType.classic) ∧
      (∀ d ∈ docs_to_delete c max_items, ∀ e ∈ c, e.type ≠ PaperType.classic →
        ¬ e._id ∈ (docs_to_delete c max_items).map Doc._id →
        d.ingested_at ≤ e.ingested_at) ∧
      cleanup_old_items c idx max_items =
        (c.filter (fun d => ¬ d._id ∈ (docs_to_delete c max_items).map Doc._id),
         indexDelete idx ((docs_to_delete c max_items).map Doc._id)) ∧
      (cleanup_old_items c idx max_items).1.length = 30000) := by
  refine ⟨cleanup_old_items_converges c idx max_items, ?_⟩
  intro hlen hclassic hnodup hm
  subst hm
  have hc : c.length > 30000 := by omega
  have hnc : (c.filter nonClassic).length = 27050 := by
    have h := List.length_eq_countP_add_countP
      (fun d => decide (d.type = PaperType.classic)) c
    have h2 : c.countP
        (fun d => decide (¬ (decide (d.type = PaperType.classic)) = true)) =
        c.countP nonClassic := by
      apply List.countP_congr
      intro d _
      simp [nonClassic]
    rw [h2, List.countP_eq_length_filter nonClassic c] at h
    omega
  have hsel50 : (docs_to_delete c 30000).length = 50 := by
    rw [docs_to_delete, if_pos hc, List.length_take, List.length_insertionSort, hnc, hlen]
    omega
  have hselnc : ∀ d ∈ docs_to_delete c 30000, d.type ≠ PaperType.classic :=
    fun _ hd => mem_docs_to_delete_nonClassic hd
  have holdest : ∀ d ∈ docs_to_delete c 30000, ∀ e ∈ c, e.type ≠ PaperType.classic →
      ¬ e._id ∈ (docs_to_delete c 30000).map Doc._id →
      d.ingested_at ≤ e.ingested_at := by
    intro d hd e he hety henotin
    have hsortedpw : List.Pairwise leIngested
        ((c.filter nonClassic).insertionSort leIngested) :=
      List.sorted_insertionSort leIngested (c.filter nonClassic)
    have hsplit : ((c.filter nonClassic).insertionSort leIngested).take (c.length - 30000) ++
        ((c.filter nonClassic).insertionSort leIngested).drop (c.length - 30000) =
        (c.filter nonClassic).insertionSort leIngested := List.take_append_drop _ _
    have hd' : d ∈ ((c.filter nonClassic).insertionSort leIngested).take
        (c.length - 30000) := by
      rw [docs_to_delete, if_pos hc] at hd
      exact hd
    have he' : e ∈ (c.filter nonClassic).insertionSort leIngested :=
      (List.mem_insertionSort leIngested).mpr
        (List.mem_filter.mpr ⟨he, by simp [nonClassic, hety]⟩)
    have he2 : e ∈ ((c.filter nonClassic).insertionSort leIngested).take (c.length - 30000) ∨
        e ∈ ((c.filter nonClassic).insertionSort leIngested).drop (c.length - 30000) := by
      rw [← hsplit] at he'
      exact List.mem_append.mp he'
    cases he2 with
    | inl h =>
        have hmem2 : e._id ∈ (docs_to_delete c 30000).map Doc._id := by
          rw [docs_to_delete, if_pos hc]
          exact List.mem_map_of_mem Doc._id h
        exact absurd hmem2 henotin
    | inr h =>
        have hpw := List.pairwise_append.mp (by rw [hsplit]; exact hsortedpw)
        exact hpw.2.2 d hd' e h
  have hne : (docs_to_delete c 30000).map Doc._id ≠ [] := by
    intro h
    have hl := congrArg List.length h
    rw [List.length_map, hsel50] at hl
    simp at hl
  have hcleq := @cleanup_old_items_eq_of_sel c idx 30000 hc hne
  have hcount50 : (c.filter
      (fun d => decide (d._id ∈ (docs_to_delete c 30000).map Doc._id))).length = 50 := by
    have hge := excess_le_countP_delete_ids c 30000 hc (by omega)
    rw [List.countP_eq_length_filter] at hge
    have hnodup2 : ((c.filter
        (fun d => decide (d._id ∈ (docs_to_delete c 30000).map Doc._id))).map Doc._id).Nodup :=
      List.Nodup.sublist (List.Sublist.map Doc._id (List.filter_sublist c)) hnodup
    have hsubset : ∀ x ∈ (c.filter
        (fun d => decide (d._id ∈ (docs_to_delete c 30000).map Doc._id))).map Doc._id,
        x ∈ (docs_to_delete c 30000).map Doc._id := by
      intro x hx
      rcases List.mem_map.mp hx with ⟨d, hd, rfl⟩
      have := (List.mem_filter.mp hd).2
      simpa using this
    have hsp := List.subperm_of_subset hnodup2 hsubset
    have hle := hsp.length_le
    rw [List.length_map, List.length_map, hsel50] at hle
    omega
  refine ⟨hsel50, hselnc, holdest, hcleq, ?_⟩
  rw [hcleq]
  show (c.filter
      (fun d => ¬ d._id ∈ (docs_to_delete c 30000).map Doc._id)).length = 30000
  simp only [decide_not]
  rw [length_filter_not_eq
    (fun d => decide (d._id ∈ (docs_to_delete c 30000).map Doc._id)) c, hcount50, hlen]

/-- A minimal document with the given id, timestamp and type, used to build
concrete stores. -/
def mkDoc (i : String) (t : Nat) (ty : PaperType) : Doc :=
  ⟨i, "", "", "", "", t, ty⟩

/-- Distinct ids for a generated corpus: the i-th id is the length-i string
of letters, so distinctness follows from the length. -/
def idOfNat (i : Nat) : String := String.mk (List.replicate i 'a')

theorem idOfNat_injective : Function.Injective idOfNat := by
  intro i j h
  have h2 : List.replicate i 'a' = List.replicate j 'a' := congrArg String.data h
  have h3 := congrArg List.length h2
  simpa using h3

/-- A 30,050-document corpus: 3,000 classic documents (timestamps 0..2999)
followed by 27,050 recent documents (timestamps 3000..30049). -/
def bigCorpus : List Doc :=
  ((List.range 3000).map (fun i => mkDoc (idOfNat i) i PaperType.classic)) ++
  ((List.range 27050).map (fun i => mkDoc (idOfNat (3000 + i)) (3000 + i) PaperType.recent))

theorem bigCorpus_length : bigCorpus.length = 30050 := by
  simp [bigCorpus]

theorem bigCorpus_classicCount :
    bigCorpus.countP (fun d => decide (d.type = PaperType.classic)) = 3000 := by
  rw [bigCorpus, List.countP_append, List.countP_map, List.countP_map]
  have h1 : List.countP
      ((fun d => decide (d.type = PaperType.classic)) ∘
        fun i => mkDoc (idOfNat i) i PaperType.classic) (List.range 3000) =
      (List.range 3000).length :=
    List.countP_eq_length.mpr (fun a _ => by simp [mkDoc, Function.comp])
  have h2 : List.countP
      ((fun d => decide (d.type = PaperType.classic)) ∘
        fun i => mkDoc (idOfNat (3000 + i)) (3000 + i) PaperType.recent)
      (List.range 27050) = 0 :=
    List.countP_eq_zero.mpr (fun a _ => by simp [mkDoc, Function.comp])
  rw [h1, h2, List.length_range]

theorem bigCorpus_nodup : (bigCorpus.map Doc._id).Nodup := by
  rw [bigCorpus, List.map_append, List.map_map, List.map_map]
  rw [List.nodup_append]
  refine ⟨?_, ?_, ?_⟩
  · refine List.Nodup.map ?_ (List.nodup_range 3000)
    intro i j h
    exact idOfNat_injective h
  · refine List.Nodup.map ?_ (List.nodup_range 27050)
    intro i j h
    have := idOfNat_injective h
    omega
  · intro a ha hb
    rcases List.mem_map.mp ha with ⟨i, hi, rfl⟩
    rcases List.mem_map.mp hb with ⟨j, hj, hij⟩
    have heq := idOfNat_injective hij
    have hi' := List.mem_range.mp hi
    omega

/-- Witness for C2's scenario theorem: the generated 30,050-document corpus
with 3,000 classics under cap 30,000. -/
theorem cleanup_scenario_witness :
    bigCorpus.length = 30050 ∧
    bigCorpus.countP (fun d => decide (d.type = PaperType.classic)) = 3000 ∧
    (bigCorpus.map Doc._id).Nodup ∧
    ((docs_to_delete bigCorpus 30000).length = 50 ∧
     (∀ d ∈ docs_to_delete bigCorpus 30000, d.type ≠ PaperType.classic) ∧
     (∀ d ∈ docs_to_delete bigCorpus 30000, ∀ e ∈ bigCorpus,
       e.type ≠ PaperType.classic →
       ¬ e._id ∈ (docs_to_delete bigCorpus 30000).map Doc._id →
       d.ingested_at ≤ e.ingested_at) ∧
     cleanup_old_items bigCorpus [] 30000 =
       (bigCorpus.filter
         (fun d => ¬ d._id ∈ (docs_to_delete bigCorpus 30000).map Doc._id),
        indexDelete [] ((docs_to_delete bigCorpus 30000).map Doc._id)) ∧
     (cleanup_old_items bigCorpus [] 30000).1.length = 30000) :=
  ⟨bigCorpus_length, bigCorpus_classicCount, bigCorpus_nodup,
    (cleanup_old_items_cap_and_scenario bigCorpus [] 30000).2
      bigCorpus_length bigCorpus_classicCount bigCorpus_nodup rfl⟩

/-! ## Candidate Discovery (`fetch_classic_ids_from_github`,
`fetch_classic_ids_from_semantic_scholar`, and the merge in
`ingest_classic_papers`). Python `set`s are modelled as duplicate-free lists
in insertion order. -/

/-- `s.add(x)` on a Python set. -/
def setAdd (s : List String) (x : String) : List String :=
  if x ∈ s then s else s ++ [x]

/-- `s.update(xs)` on a Python set. -/
def setUpdate (s : List String) (xs : List String) : List String :=
  xs.foldl setAdd s

theorem mem_setAdd {s : List String} {x y : String} :
    y ∈ setAdd s x ↔ y ∈ s ∨ y = x := by
  unfold setAdd
  by_cases h : x ∈ s
  · simp only [h, if_true]
    constructor
    · exact Or.inl
    · rintro (hy | rfl)
      · exact hy
      · exact h
  · simp [h]

theorem setAdd_nodup {s : List String} (hs : s.Nodup) (x : String) :
    (setAdd s x).Nodup := by
  unfold setAdd
  by_cases h : x ∈ s
  · simpa [h]
  · rw [if_neg h]
    refine List.nodup_append.mpr ⟨hs, List.nodup_singleton x, ?_⟩
    intro a ha hax
    rw [List.mem_singleton] at hax
    subst hax
    exact h ha

theorem mem_setUpdate {xs : List String} :
    ∀ {s y}, y ∈ setUpdate s xs ↔ y ∈ s ∨ y ∈ xs := by
  induction xs with
  | nil => intro s y; simp [setUpdate]
  | cons a l ih =>
      intro s y
      show y ∈ setUpdate (setAdd s a) l ↔ _
      rw [ih, mem_setAdd]
      simp only [List.mem_cons]
      tauto

theorem setUpdate_nodup {xs : List String} :
    ∀ {s : List String}, s.Nodup → (setUpdate s xs).Nodup := by
  induction xs with
  | nil => intro s hs; exact hs
  | cons a l ih =>
      intro s hs
      exact ih (setAdd_nodup hs a)

/-- `fetch_classic_ids_from_github(n)`: each entry of `pages` is one
awesome-list URL's outcome — `none` for a `requests.RequestException`
(logged and skipped), `some found_ids` for the arxiv-pattern `findall`
results on the fetched text. The collected set is returned as
`list(classic_ids)[:n]`. -/
def fetch_classic_ids_from_github (pages : List (Option (List String))) (n : Nat) :
    List String :=
  (pages.foldl (fun acc page =>
    match page with
    | none => acc
    | some found_ids => setUpdate acc found_ids) []).take n

/-- One Semantic Scholar HTTP response, as seen by the retry loop:
a 429 status, a raised error (`raise_for_status`, network, or JSON), or a
parsed body whose `data` array yields an optional ArXiv external id per
item (`none` when `externalIds.ArXiv` is absent). `ok []` covers a falsy or
missing `data` field. -/
inductive SSResp where
  | rate429 : SSResp
  | err : SSResp
  | ok : List (Option String) → SSResp

/-- The inner retry loop (`while retries < max_retries`), counted by the
remaining attempts (`max_retries - retries`): a 429 sleeps 60s and retries,
an exception sleeps 5s and retries, a success breaks with the parsed body.
Returns the page data (`none` when every attempt failed, leaving `data`
falsy) and the index of the next unconsumed response. -/
def ssTryPage (resps : Nat → SSResp) : Nat → Nat → Option (List (Option String)) × Nat
  | req, 0 => (none, req)
  | req, rem + 1 =>
    match resps req with
    | SSResp.rate429 => ssTryPage resps (req + 1) rem
    | SSResp.err => ssTryPage resps (req + 1) rem
    | SSResp.ok items => (some items, req + 1)

/-- The per-page item loop: add each present ArXiv id not already collected,
breaking as soon as `n` ids are reached. -/
def ssAddItems (n : Nat) : List (Option String) → List String → List String
  | [], ids => ids
  | item :: rest, ids =>
    match item with
    | none => ssAddItems n rest ids
    | some a =>
      if a ∈ ids then ssAddItems n rest ids
      else if n ≤ (ids ++ [a]).length then ids ++ [a]
      else ssAddItems n rest (ids ++ [a])

/-- The paging loop of `fetch_classic_ids_from_semantic_scholar`: while
fewer than `n` ids are collected, fetch a page with up to 3 attempts; a
falsy or absent `data` (including the all-attempts-failed case) breaks the
whole loop; otherwise add the page's ids, stopping at `n` ids or past
offset 9900. -/
def ssLoop (resps : Nat → SSResp) (n : Nat) (offset req : Nat) (ids : List String) :
    List String :=
  if ids.length < n then
    match ssTryPage resps req 3 with
    | (none, _) => ids
    | (some [], _) => ids
    | (some (item :: rest), req') =>
      let ids' := ssAddItems n (item :: rest) ids
      if n ≤ ids'.length then ids'
      else if 9900 < offset + 100 then ids'
      else ssLoop resps n (offset + 100) req' ids'
  else ids
termination_by 10000 - offset
decreasing_by omega

/-- `fetch_classic_ids_from_semantic_scholar(n)` over a stream of HTTP
responses indexed by request count. -/
def fetch_classic_ids_from_semantic_scholar (resps : Nat → SSResp) (n : Nat) :
    List String :=
  ssLoop resps n 0 0 []

/-- Lines 147–152 of src/ingest_data.py: the two sources and their merge
`set(github_ids) | set(scholar_ids)` inside `ingest_classic_papers`. -/
def combined_ids (pages : List (Option (List String))) (resps : Nat → SSResp)
    (limit : Nat) : List String :=
  setUpdate (setUpdate [] (fetch_classic_ids_from_github pages limit))
    (fetch_classic_ids_from_semantic_scholar resps (limit / 2))

/-- Responses used for the concrete merge scenario: the ranked API returns
the two ids of source B on every page. -/
def exSchResps : Nat → SSResp := fun _ => SSResp.ok [some "1810.04805", some "2005.14165"]

/-- Responses for the union-exceeds-n scenario: the ranked API returns one
id not found on GitHub. -/
def exSchResps2 : Nat → SSResp := fun _ => SSResp.ok [some "2005.14165"]

theorem exSch_eval : fetch_classic_ids_from_semantic_scholar exSchResps 2 =
    ["1810.04805", "2005.14165"] := by
  rw [fetch_classic_ids_from_semantic_scholar, ssLoop]
  decide

theorem exSch2_eval : fetch_classic_ids_from_semantic_scholar exSchResps2 1 =
    ["2005.14165"] := by
  rw [fetch_classic_ids_from_semantic_scholar, ssLoop]
  decide

/-- C4: the two classic-id sources are merged by set union, so the merged
candidate set contains each id exactly once even when the sources overlap
(the concrete pair of sources merges to exactly 3 ids), and the hard cap at
`n` is applied only to the GitHub source, so the union itself may exceed
`n` (witnessed concretely with `n = 2`). -/
theorem combined_ids_dedup_and_cap :
    (∀ pages resps limit, (combined_ids pages resps limit).Nodup ∧
      ∀ y, y ∈ combined_ids pages resps limit ↔
        (y ∈ fetch_classic_ids_from_github pages limit ∨
         y ∈ fetch_classic_ids_from_semantic_scholar resps (limit / 2))) ∧
    (∀ pages limit, (fetch_classic_ids_from_github pages limit).length ≤ limit) ∧
    combined_ids [some ["1706.03762", "1810.04805"]] exSchResps 4 =
      ["1706.03762", "1810.04805", "2005.14165"] ∧
    2 < (combined_ids [some ["1706.03762", "1810.04805"]] exSchResps2 2).length := by
  refine ⟨?_, ?_, ?_, ?_⟩
  · intro pages resps limit
    constructor
    · exact setUpdate_nodup (setUpdate_nodup List.nodup_nil)
    · intro y
      rw [combined_ids, mem_setUpdate, mem_setUpdate]
      simp
  · intro pages limit
    exact List.length_take_le limit _
  · rw [combined_ids, exSch_eval]
    decide
  · rw [combined_ids, exSch2_eval]
    decide

/-- A response stream whose first page fails all three attempts and whose
next request would succeed with a fresh id. -/
def failThenOk : Nat → SSResp := fun k =>
  if k < 3 then SSResp.err else SSResp.ok [some "2005.14165"]

/-- C6 counterexample: when one page exhausts its retries, the whole
Semantic Scholar discovery loop ends with the ids collected so far ([] here)
even though the very next request would have produced an id — the same
stream without the failures yields that id. So the run does not continue
past the abandoned page. -/
theorem ss_abandons_run_counterexample :
    fetch_classic_ids_from_semantic_scholar failThenOk 1 = [] ∧
    fetch_classic_ids_from_semantic_scholar exSchResps2 1 = ["2005.14165"] ∧
    ([] : List String) ≠ ["2005.14165"] := by
  refine ⟨?_, exSch2_eval, by decide⟩
  rw [fetch_classic_ids_from_semantic_scholar, ssLoop]
  decide

/-- An attempt the retry loop treats as failed: HTTP 429 (sleep 60s) or a
raised error (sleep 5s). -/
def ssFailing (r : SSResp) : Prop := r = SSResp.rate429 ∨ r = SSResp.err

/-- A failed attempt consumes one request and one retry. -/
theorem ssTryPage_fail_step {resps : Nat → SSResp} {req rem : Nat}
    (h : ssFailing (resps req)) :
    ssTryPage resps req (rem + 1) = ssTryPage resps (req + 1) rem := by
  rcases h with h | h <;> simp [ssTryPage, h]

/-- The retry loop consumes at most `rem` requests. -/
theorem ssTryPage_req_le (resps : Nat → SSResp) :
    ∀ (rem req : Nat), (ssTryPage resps req rem).2 ≤ req + rem := by
  intro rem
  induction rem with
  | zero => intro req; simp [ssTryPage]
  | succ n ih =>
      intro req
      cases h : resps req with
      | rate429 =>
          rw [ssTryPage_fail_step (Or.inl h)]
          have := ih (req + 1)
          omega
      | err =>
          rw [ssTryPage_fail_step (Or.inr h)]
          have := ih (req + 1)
          omega
      | ok items => simp [ssTryPage, h]

/-- C6 (amended): a 429 or transient error makes the page loop sleep a fixed
cooldown and retry, up to `max_retries = 3` attempts per page (consuming at
most 3 requests); a successful attempt returns the page body; but when all
3 attempts for a page fail, the whole discovery loop returns the ids
collected so far — the run over further pages ends, not just the current
page. -/
theorem ss_retry_and_abandon (resps : Nat → SSResp) (req : Nat) :
    ((ssTryPage resps req 3).2 ≤ req + 3) ∧
    (∀ rem, ssFailing (resps req) →
      ssTryPage resps req (rem + 1) = ssTryPage resps (req + 1) rem) ∧
    (∀ items rem, resps req = SSResp.ok items →
      ssTryPage resps req (rem + 1) = (some items, req + 1)) ∧
    (∀ n offset ids, ids.length < n →
      ssFailing (resps req) → ssFailing (resps (req + 1)) →
      ssFailing (resps (req + 2)) →
      ssLoop resps n offset req ids = ids) := by
  refine ⟨ssTryPage_req_le resps 3 req, ?_, ?_, ?_⟩
  · intro rem h
    exact ssTryPage_fail_step h
  · intro items rem h
    simp [ssTryPage, h]
  · intro n offset ids hlt hf1 hf2 hf3
    have htry : ssTryPage resps req 3 = (none, req + 3) := by
      calc ssTryPage resps req 3
          = ssTryPage resps (req + 1) 2 := ssTryPage_fail_step hf1
        _ = ssTryPage resps (req + 1 + 1) 1 := ssTryPage_fail_step hf2
        _ = ssTryPage resps (req + 1 + 1 + 1) 0 := by
              have : ssFailing (resps (req + 1 + 1)) := by
                have h12 : req + 1 + 1 = req + 2 := by omega
                rw [h12]
                exact hf3
              exact ssTryPage_fail_step this
        _ = (none, req + 3) := by
              rw [ssTryPage]
    rw [ssLoop, if_pos hlt, htry]

/-- Witness for the amended C6 theorem at the concrete stream `failThenOk`:
three failed attempts on the first page, success available at request 3. -/
theorem ss_retry_witness :
    ssFailing (failThenOk 0) ∧ ssFailing (failThenOk 1) ∧ ssFailing (failThenOk 2) ∧
    ([] : List String).length < 1 ∧
    failThenOk 3 = SSResp.ok [some "2005.14165"] ∧
    (ssTryPage failThenOk 0 3).2 ≤ 0 + 3 ∧
    ssTryPage failThenOk 0 (0 + 1) = ssTryPage failThenOk 1 0 ∧
    ssTryPage failThenOk 3 (0 + 1) = (some [some "2005.14165"], 3 + 1) ∧
    ssLoop failThenOk 1 0 0 [] = [] := by
  have h := ss_retry_and_abandon failThenOk 0
  have h3 := ss_retry_and_abandon failThenOk 3
  exact ⟨Or.inr rfl, Or.inr rfl, Or.inr rfl, by decide, rfl, h.1,
    h.2.1 0 (Or.inr rfl), h3.2.2.1 [some "2005.14165"] 0 rfl,
    h.2.2.2 1 0 [] (by decide) (Or.inr rfl) (Or.inr rfl) (Or.inr rfl)⟩

/-! ## Query Engine (`perform_search` in src/app.py). The Pinecone call
`index.query(vector=model.encode(q), top_k=15)` is modelled by a function
`queryIndex : String → List SearchHit` from query text to scored matches;
similarity scores, which the program only compares, are modelled as `Int`. -/

/-- One Pinecone match: `{"id": ..., "score": ...}`. -/
structure SearchHit where
  id : String
  score : Int
deriving DecidableEq, Repr

/-- One element of `all_results` as built by `perform_search`. -/
structure ResultEntry where
  id : String
  score : Int
  title : String
  summary : String
  authors : String
  pdf_url : String
  type : PaperType
deriving DecidableEq, Repr

/-- `{res["id"]: res["score"] for res in matches}.get(k, 0)`: the dict
comprehension lets a later duplicate key overwrite an earlier one, and a
missing key yields the default 0. -/
def id_to_score (hits : List SearchHit) (k : String) : Int :=
  match hits.reverse.find? (fun r => decide (r.id = k)) with
  | some r => r.score
  | none => 0

/-- The entry appended to `all_results` for a metadata document, scored
from the current query's matches. -/
def entryFrom (hits : List SearchHit) (m : Doc) : ResultEntry :=
  ⟨m._id, id_to_score hits m._id, m.title, m.summary, m.authors, m.pdf_url, m.type⟩

/-- The accumulator of `perform_search`: `all_results` and `seen_ids`. -/
structure QueryAcc where
  all_results : List ResultEntry
  seen_ids : List String
deriving DecidableEq, Repr

/-- The body of `for meta in papers_metadata`: append a result entry and
mark the id seen, unless the id was already captured. -/
def addMeta (hits : List SearchHit) (acc : QueryAcc) (meta : Doc) : QueryAcc :=
  if meta._id ∈ acc.seen_ids then acc
  else ⟨acc.all_results ++ [entryFrom hits meta], acc.seen_ids ++ [meta._id]⟩

/-- One iteration of `for query in queries`: skip when the index returned no
matches, otherwise join the matched ids against the Metadata Store (which
returns documents in store order) and fold them into the accumulator. -/
def processQuery (store : List Doc) (acc : QueryAcc) (hits : List SearchHit) :
    QueryAcc :=
  if hits.map SearchHit.id = [] then acc
  else
    (store.filter (fun d => d._id ∈ hits.map SearchHit.id)).foldl (addMeta hits) acc

/-- The merged accumulator after all queries. -/
def all_search_results (store : List Doc) (queryIndex : String → List SearchHit)
    (queries : List String) : List ResultEntry :=
  (queries.foldl (fun acc q => processQuery store acc (queryIndex q)) ⟨[], []⟩).all_results

/-- `all_results.sort(key=lambda x: x["score"], reverse=True)`: a stable
descending sort by score. -/
def scoreGe (a b : ResultEntry) : Prop := b.score ≤ a.score

instance : DecidableRel scoreGe := fun a b => Int.decLe b.score a.score

instance : IsTotal ResultEntry scoreGe := ⟨fun a b => Int.le_total b.score a.score⟩

instance : IsTrans ResultEntry scoreGe := ⟨fun _ _ _ h₁ h₂ => Int.le_trans h₂ h₁⟩

/-- `perform_search(queries)` from src/app.py: merge all queries, sort by
score descending, truncate to 25. -/
def perform_search (store : List Doc) (queryIndex : String → List SearchHit)
    (queries : List String) : List ResultEntry :=
  ((all_search_results store queryIndex queries).insertionSort scoreGe).take 25

/-- C8: for any set of input queries (and any store and index behaviour),
the list returned by `perform_search` has length at most 25 and is sorted
in descending order of similarity score. -/
theorem perform_search_budget_and_sorted (store : List Doc)
    (queryIndex : String → List SearchHit) (queries : List String) :
    (perform_search store queryIndex queries).length ≤ 25 ∧
    (perform_search store queryIndex queries).Sorted scoreGe :=
  ⟨List.length_take_le 25 _,
    List.Pairwise.sublist (List.take_sublist _ _)
      (List.sorted_insertionSort scoreGe _)⟩

/-- Entries produced by one `addMeta` step: either pre-existing or built
from the processed metadata document. -/
theorem addMeta_all_mem {hits : List SearchHit} {acc : QueryAcc} {meta : Doc}
    {r : ResultEntry} (hr : r ∈ (addMeta hits acc meta).all_results) :
    r ∈ acc.all_results ∨ r = entryFrom hits meta := by
  unfold addMeta at hr
  by_cases h : meta._id ∈ acc.seen_ids
  · rw [if_pos h] at hr
    exact Or.inl hr
  · rw [if_neg h] at hr
    rcases List.mem_append.mp hr with h' | h'
    · exact Or.inl h'
    · exact Or.inr (List.mem_singleton.mp h')

/-- Entries produced by folding `addMeta` over a metadata batch. -/
theorem foldl_addMeta_mem {hits : List SearchHit} {r : ResultEntry} :
    ∀ (metas : List Doc) (acc : QueryAcc),
      r ∈ (metas.foldl (addMeta hits) acc).all_results →
      r ∈ acc.all_results ∨ ∃ m ∈ metas, r = entryFrom hits m := by
  intro metas
  induction metas with
  | nil => intro acc hr; exact Or.inl hr
  | cons m rest ih =>
      intro acc hr
      rcases ih (addMeta hits acc m) hr with h | h
      · rcases addMeta_all_mem h with h' | h'
        · exact Or.inl h'
        · exact Or.inr ⟨m, List.mem_cons_self m rest, h'⟩
      · rcases h with ⟨m', hm', he⟩
        exact Or.inr ⟨m', List.mem_cons_of_mem m hm', he⟩

/-- Entries produced by one query: either pre-existing or built from a
document of the Metadata Store. -/
theorem processQuery_mem {store : List Doc} {acc : QueryAcc} {hits : List SearchHit}
    {r : ResultEntry} (hr : r ∈ (processQuery store acc hits).all_results) :
    r ∈ acc.all_results ∨ ∃ m ∈ store, r = entryFrom hits m := by
  unfold processQuery at hr
  by_cases h : hits.map SearchHit.id = []
  · rw [if_pos h] at hr
    exact Or.inl hr
  · rw [if_neg h] at hr
    rcases foldl_addMeta_mem _ _ hr with h' | h'
    · exact Or.inl h'
    · rcases h' with ⟨m, hm, he⟩
      exact Or.inr ⟨m, (List.mem_filter.mp hm).1, he⟩

/-- Entries of the merged accumulator: either pre-existing or built from a
store document scored by one of the queries. -/
theorem queries_foldl_mem {store : List Doc} {queryIndex : String → List SearchHit}
    {r : ResultEntry} :
    ∀ (queries : List String) (acc : QueryAcc),
      r ∈ (queries.foldl (fun a q => processQuery store a (queryIndex q)) acc).all_results →
      r ∈ acc.all_results ∨ ∃ m ∈ store, ∃ q, r = entryFrom (queryIndex q) m := by
  intro queries
  induction queries with
  | nil => intro acc hr; exact Or.inl hr
  | cons q rest ih =>
      intro acc hr
      rcases ih (processQuery store acc (queryIndex q)) hr with h | h
      · rcases processQuery_mem h with h' | h'
        · exact Or.inl h'
        · rcases h' with ⟨m, hm, he⟩
          exact Or.inr ⟨m, hm, q, he⟩
      · exact Or.inr h

/-- Results of `perform_search` come from the merged accumulator. -/
theorem mem_all_of_mem_perform_search {store : List Doc}
    {queryIndex : String → List SearchHit} {queries : List String} {r : ResultEntry}
    (hr : r ∈ perform_search store queryIndex queries) :
    r ∈ all_search_results store queryIndex queries := by
  have h1 : r ∈ (all_search_results store queryIndex queries).insertionSort scoreGe :=
    List.mem_of_mem_take hr
  exact (List.mem_insertionSort scoreGe).mp h1

/-- C10: every entry returned by the query engine carries metadata joined
from a document of the Metadata Store under the same id; an id returned by
the Vector Index with no matching metadata document is silently omitted —
no returned entry can bear an id absent from the store. -/
theorem perform_search_joins_store (store : List Doc)
    (queryIndex : String → List SearchHit) (queries : List String) :
    (∀ r ∈ perform_search store queryIndex queries,
      ∃ m ∈ store, m._id = r.id ∧ r.title = m.title ∧ r.summary = m.summary ∧
        r.authors = m.authors ∧ r.pdf_url = m.pdf_url ∧ r.type = m.type) ∧
    (∀ i : String, (∀ m ∈ store, m._id ≠ i) →
      ∀ r ∈ perform_search store queryIndex queries, r.id ≠ i) := by
  have hmain : ∀ r ∈ perform_search store queryIndex queries,
      ∃ m ∈ store, m._id = r.id ∧ r.title = m.title ∧ r.summary = m.summary ∧
        r.authors = m.authors ∧ r.pdf_url = m.pdf_url ∧ r.type = m.type := by
    intro r hr
    have h1 := mem_all_of_mem_perform_search hr
    rcases queries_foldl_mem queries ⟨[], []⟩ h1 with h | h
    · exact absurd h (List.not_mem_nil r)
    · rcases h with ⟨m, hm, q, he⟩
      subst he
      exact ⟨m, hm, rfl, rfl, rfl, rfl, rfl, rfl⟩
  refine ⟨hmain, ?_⟩
  intro i hi r hr hid
  rcases hmain r hr with ⟨m, hm, hmid, _⟩
  exact hi m hm (hmid.trans hid)

/-- A one-document store and an index response containing both that id and
an id with no metadata document. -/
def exStoreQ : List Doc := [mkDoc "1706.03762" 1 PaperType.classic]

/-- Index behaviour returning a dangling id next to a stored one. -/
def exQueryIndex : String → List SearchHit :=
  fun _ => [⟨"1706.03762", 9⟩, ⟨"9999.99999", 8⟩]

/-- Witness for C10: the dangling id "9999.99999" is silently omitted and
the only returned entry joins the stored document's metadata. -/
theorem perform_search_joins_store_witness :
    (∀ m ∈ exStoreQ, m._id ≠ "9999.99999") ∧
    (∀ r ∈ perform_search exStoreQ exQueryIndex ["attention"],
      r.id ≠ "9999.99999") ∧
    perform_search exStoreQ exQueryIndex ["attention"] =
      [⟨"1706.03762", 9, "", "", "", "", PaperType.classic⟩] :=
  ⟨by decide,
    (perform_search_joins_store exStoreQ exQueryIndex ["attention"]).2
      "9999.99999" (by decide),
    by decide⟩

/-- The bookkeeping invariant of `perform_search`: `seen_ids` lists exactly
the ids of `all_results`, in order. -/
def accInv (acc : QueryAcc) : Prop :=
  acc.seen_ids = acc.all_results.map ResultEntry.id

theorem addMeta_inv {hits : List SearchHit} {acc : QueryAcc} {meta : Doc}
    (h : accInv acc) : accInv (addMeta hits acc meta) := by
  unfold accInv addMeta
  by_cases hm : meta._id ∈ acc.seen_ids
  · rwa [if_pos hm]
  · rw [if_neg hm]
    show acc.seen_ids ++ [meta._id] =
      (acc.all_results ++ [entryFrom hits meta]).map ResultEntry.id
    rw [List.map_append, h]
    rfl

theorem foldl_addMeta_inv {hits : List SearchHit} :
    ∀ (metas : List Doc) (acc : QueryAcc), accInv acc →
      accInv (metas.foldl (addMeta hits) acc) := by
  intro metas
  induction metas with
  | nil => intro acc h; exact h
  | cons m rest ih => intro acc h; exact ih _ (addMeta_inv h)

theorem processQuery_inv {store : List Doc} {acc : QueryAcc} {hits : List SearchHit}
    (h : accInv acc) : accInv (processQuery store acc hits) := by
  unfold processQuery
  by_cases hm : hits.map SearchHit.id = []
  · rwa [if_pos hm]
  · rw [if_neg hm]
    exact foldl_addMeta_inv _ _ h

theorem queries_foldl_inv {store : List Doc} {queryIndex : String → List SearchHit} :
    ∀ (qs : List String) (acc : QueryAcc), accInv acc →
      accInv (qs.foldl (fun a q => processQuery store a (queryIndex q)) acc) := by
  intro qs
  induction qs with
  | nil => intro acc h; exact h
  | cons q rest ih => intro acc h; exact ih _ (processQuery_inv h)

theorem addMeta_seen_mono {hits : List SearchHit} {acc : QueryAcc} {meta : Doc}
    {y : String} (h : y ∈ acc.seen_ids) : y ∈ (addMeta hits acc meta).seen_ids := by
  unfold addMeta
  by_cases hm : meta._id ∈ acc.seen_ids
  · rwa [if_pos hm]
  · rw [if_neg hm]
    exact List.mem_append_left _ h

theorem foldl_addMeta_seen_mono {hits : List SearchHit} {y : String} :
    ∀ (metas : List Doc) (acc : QueryAcc), y ∈ acc.seen_ids →
      y ∈ (metas.foldl (addMeta hits) acc).seen_ids := by
  intro metas
  induction metas with
  | nil => intro acc h; exact h
  | cons m rest ih => intro acc h; exact ih _ (addMeta_seen_mono h)

theorem processQuery_seen_mono {store : List Doc} {acc : QueryAcc}
    {hits : List SearchHit} {y : String} (h : y ∈ acc.seen_ids) :
    y ∈ (processQuery store acc hits).seen_ids := by
  unfold processQuery
  by_cases hm : hits.map SearchHit.id = []
  · rwa [if_pos hm]
  · rw [if_neg hm]
    exact foldl_addMeta_seen_mono _ _ h

theorem addMeta_seen_origin {hits : List SearchHit} {acc : QueryAcc} {meta : Doc}
    {y : String} (h : y ∈ (addMeta hits acc meta).seen_ids) :
    y ∈ acc.seen_ids ∨ y = meta._id := by
  unfold addMeta at h
  by_cases hm : meta._id ∈ acc.seen_ids
  · rw [if_pos hm] at h
    exact Or.inl h
  · rw [if_neg hm] at h
    rcases List.mem_append.mp h with h' | h'
    · exact Or.inl h'
    · exact Or.inr (List.mem_singleton.mp h')

theorem foldl_addMeta_seen_origin {hits : List SearchHit} {y : String} :
    ∀ (metas : List Doc) (acc : QueryAcc),
      y ∈ (metas.foldl (addMeta hits) acc).seen_ids →
      y ∈ acc.seen_ids ∨ ∃ m ∈ metas, y = m._id := by
  intro metas
  induction metas with
  | nil => intro acc h; exact Or.inl h
  | cons m rest ih =>
      intro acc h
      rcases ih (addMeta hits acc m) h with h' | h'
      · rcases addMeta_seen_origin h' with h'' | h''
        · exact Or.inl h''
        · exact Or.inr ⟨m, List.mem_cons_self m rest, h''⟩
      · rcases h' with ⟨m', hm', he⟩
        exact Or.inr ⟨m', List.mem_cons_of_mem m hm', he⟩

theorem processQuery_seen_origin {store : List Doc} {acc : QueryAcc}
    {hits : List SearchHit} {y : String}
    (h : y ∈ (processQuery store acc hits).seen_ids) :
    y ∈ acc.seen_ids ∨ y ∈ hits.map SearchHit.id := by
  unfold processQuery at h
  by_cases hm : hits.map SearchHit.id = []
  · rw [if_pos hm] at h
    exact Or.inl h
  · rw [if_neg hm] at h
    rcases foldl_addMeta_seen_origin _ _ h with h' | h'
    · exact Or.inl h'
    · rcases h' with ⟨m, hm', he⟩
      right
      have := (List.mem_filter.mp hm').2
      rw [he]
      simpa using this

theorem queries_foldl_seen_origin {store : List Doc}
    {queryIndex : String → List SearchHit} {y : String} :
    ∀ (qs : List String) (acc : QueryAcc),
      y ∈ (qs.foldl (fun a q => processQuery store a (queryIndex q)) acc).seen_ids →
      y ∈ acc.seen_ids ∨ ∃ q ∈ qs, y ∈ (queryIndex q).map SearchHit.id := by
  intro qs
  induction qs with
  | nil => intro acc h; exact Or.inl h
  | cons q rest ih =>
      intro acc h
      rcases ih (processQuery store acc (queryIndex q)) h with h' | h'
      · rcases processQuery_seen_origin h' with h'' | h''
        · exact Or.inl h''
        · exact Or.inr ⟨q, List.mem_cons_self q rest, h''⟩
      · rcases h' with ⟨q', hq', he⟩
        exact Or.inr ⟨q', List.mem_cons_of_mem q hq', he⟩

theorem addMeta_filter_of_seen {hits : List SearchHit} {acc : QueryAcc} {meta : Doc}
    {x : String} (hx : x ∈ acc.seen_ids) :
    (addMeta hits acc meta).all_results.filter (fun e => decide (e.id = x)) =
      acc.all_results.filter (fun e => decide (e.id = x)) := by
  unfold addMeta
  by_cases hm : meta._id ∈ acc.seen_ids
  · rw [if_pos hm]
  · rw [if_neg hm]
    have hne : ¬ meta._id = x := fun heq => hm (heq ▸ hx)
    show (acc.all_results ++ [entryFrom hits meta]).filter (fun e => decide (e.id = x)) = _
    rw [List.filter_append]
    have hnil : [entryFrom hits meta].filter (fun e => decide (e.id = x)) = [] := by
      simp [entryFrom, hne]
    rw [hnil, List.append_nil]

theorem foldl_addMeta_filter_of_seen {hits : List SearchHit} {x : String} :
    ∀ (metas : List Doc) (acc : QueryAcc), x ∈ acc.seen_ids →
      (metas.foldl (addMeta hits) acc).all_results.filter (fun e => decide (e.id = x)) =
        acc.all_results.filter (fun e => decide (e.id = x)) := by
  intro metas
  induction metas with
  | nil => intro acc _; rfl
  | cons m rest ih =>
      intro acc hx
      rw [List.foldl_cons, ih _ (addMeta_seen_mono hx), addMeta_filter_of_seen hx]

theorem processQuery_filter_of_seen {store : List Doc} {acc : QueryAcc}
    {hits : List SearchHit} {x : String} (hx : x ∈ acc.seen_ids) :
    (processQuery store acc hits).all_results.filter (fun e => decide (e.id = x)) =
      acc.all_results.filter (fun e => decide (e.id = x)) := by
  unfold processQuery
  by_cases hm : hits.map SearchHit.id = []
  · rw [if_pos hm]
  · rw [if_neg hm]
    exact foldl_addMeta_filter_of_seen _ _ hx

theorem queries_foldl_filter_of_seen {store : List Doc}
    {queryIndex : String → List SearchHit} {x : String} :
    ∀ (qs : List String) (acc : QueryAcc), x ∈ acc.seen_ids →
      ((qs.foldl (fun a q => processQuery store a (queryIndex q)) acc).all_results.filter
        (fun e => decide (e.id = x))) =
        acc.all_results.filter (fun e => decide (e.id = x)) := by
  intro qs
  induction qs with
  | nil => intro acc _; rfl
  | cons q rest ih =>
      intro acc hx
      rw [List.foldl_cons, ih _ (processQuery_seen_mono hx), processQuery_filter_of_seen hx]

/-- Two filters over the same list commute. -/
theorem filter_swap {α : Type} (p q : α → Bool) (l : List α) :
    (l.filter p).filter q = (l.filter q).filter p := by
  simp only [List.filter_filter]
  apply List.filter_congr
  intro a _
  exact Bool.and_comm _ _

/-- Folding a metadata batch containing exactly one document with id `x`
(not yet seen) captures exactly one entry for `x`: the one built from that
document with the current query's score. -/
theorem foldl_addMeta_filter_unique {hits : List SearchHit} {x : String} {d : Doc} :
    ∀ (metas : List Doc) (acc : QueryAcc),
      ¬ x ∈ acc.seen_ids → accInv acc →
      metas.filter (fun m => decide (m._id = x)) = [d] →
      (metas.foldl (addMeta hits) acc).all_results.filter (fun e => decide (e.id = x)) =
        [entryFrom hits d] := by
  intro metas
  induction metas with
  | nil =>
      intro acc _ _ hf
      simp at hf
  | cons m rest ih =>
      intro acc hx hinv hf
      by_cases hm : m._id = x
      · rw [List.filter_cons, if_pos (by simpa using hm)] at hf
        injection hf with h1 h2
        subst h1
        have hmseen : ¬ m._id ∈ acc.seen_ids := fun hc => hx (hm ▸ hc)
        rw [List.foldl_cons]
        have hstep : addMeta hits acc m =
            ⟨acc.all_results ++ [entryFrom hits m], acc.seen_ids ++ [m._id]⟩ := by
          unfold addMeta
          rw [if_neg hmseen]
        rw [hstep]
        have hxseen : x ∈ (QueryAcc.mk (acc.all_results ++ [entryFrom hits m])
            (acc.seen_ids ++ [m._id])).seen_ids := by
          show x ∈ acc.seen_ids ++ [m._id]
          exact List.mem_append_right _ (by rw [hm]; exact List.mem_singleton_self x)
        rw [foldl_addMeta_filter_of_seen rest _ hxseen]
        show (acc.all_results ++ [entryFrom hits m]).filter (fun e => decide (e.id = x)) = _
        rw [List.filter_append]
        have hnil : acc.all_results.filter (fun e => decide (e.id = x)) = [] := by
          apply List.filter_eq_nil_iff.mpr
          intro e he
          simp only [decide_eq_true_eq]
          intro heq
          apply hx
          rw [hinv]
          exact heq ▸ List.mem_map_of_mem ResultEntry.id he
        have hone : [entryFrom hits m].filter (fun e => decide (e.id = x)) =
            [entryFrom hits m] := by
          simp [entryFrom, hm]
        rw [hnil, hone, List.nil_append]
      · rw [List.filter_cons, if_neg (by simpa using hm)] at hf
        rw [List.foldl_cons]
        have hx' : ¬ x ∈ (addMeta hits acc m).seen_ids := by
          intro hc
          rcases addMeta_seen_origin hc with h' | h'
          · exact hx h'
          · exact hm h'.symm
        exact ih _ hx' (addMeta_inv hinv) hf

/-- Processing a query whose matches include `x` (with `x` not yet seen and
exactly one store document under that id) captures exactly one entry for
`x`, scored from this query. -/
theorem processQuery_filter_unique {store : List Doc} {acc : QueryAcc}
    {hits : List SearchHit} {x : String} {d : Doc}
    (hx : ¬ x ∈ acc.seen_ids) (hinv : accInv acc)
    (hd : store.filter (fun m => decide (m._id = x)) = [d])
    (hq : x ∈ hits.map SearchHit.id) :
    (processQuery store acc hits).all_results.filter (fun e => decide (e.id = x)) =
      [entryFrom hits d] := by
  have hdmem : d ∈ store.filter (fun m => decide (m._id = x)) := by
    rw [hd]
    exact List.mem_singleton_self d
  have hdx : d._id = x := by simpa using (List.mem_filter.mp hdmem).2
  unfold processQuery
  rw [if_neg (List.ne_nil_of_mem hq)]
  apply foldl_addMeta_filter_unique _ _ hx hinv
  rw [filter_swap, hd]
  have hxin : ∃ a ∈ hits, a.id = x := by simpa using hq
  simp [hdx, hxin]

/-- C7: for any two queries Q1 processed before Q2 that both match an id X,
the entry retained for X — including its score — is the one captured while
processing the earliest query matching X (Q1 here): exactly one entry for X
sits in the merged accumulator, it is built from X's store document scored
by Q1's matches, and any entry for X surviving in the final truncated
result list is that same entry — a later query never overwrites it. -/
theorem perform_search_first_query_wins (store : List Doc)
    (queryIndex : String → List SearchHit) (pre post : List String) (q1 x : String)
    (d : Doc)
    (hd : store.filter (fun m => decide (m._id = x)) = [d])
    (hpre : ∀ q ∈ pre, ¬ x ∈ (queryIndex q).map SearchHit.id)
    (hq1 : x ∈ (queryIndex q1).map SearchHit.id) :
    (all_search_results store queryIndex (pre ++ q1 :: post)).filter
      (fun e => decide (e.id = x)) = [entryFrom (queryIndex q1) d] ∧
    (entryFrom (queryIndex q1) d).score = id_to_score (queryIndex q1) x ∧
    (∀ r ∈ perform_search store queryIndex (pre ++ q1 :: post),
      r.id = x → r = entryFrom (queryIndex q1) d) := by
  have hdmem : d ∈ store.filter (fun m => decide (m._id = x)) := by
    rw [hd]
    exact List.mem_singleton_self d
  have hdx : d._id = x := by simpa using (List.mem_filter.mp hdmem).2
  have hmain : (all_search_results store queryIndex (pre ++ q1 :: post)).filter
      (fun e => decide (e.id = x)) = [entryFrom (queryIndex q1) d] := by
    unfold all_search_results
    rw [List.foldl_append, List.foldl_cons]
    have hinv0 : accInv (pre.foldl
        (fun a q => processQuery store a (queryIndex q)) ⟨[], []⟩) :=
      queries_foldl_inv pre ⟨[], []⟩ rfl
    have hx0 : ¬ x ∈ (pre.foldl
        (fun a q => processQuery store a (queryIndex q)) ⟨[], []⟩).seen_ids := by
      intro hc
      rcases queries_foldl_seen_origin pre _ hc with h | ⟨q, hq, hmem⟩
      · exact absurd h (List.not_mem_nil x)
      · exact hpre q hq hmem
    have h1 := processQuery_filter_unique hx0 hinv0 hd hq1
    have hinv1 : accInv (processQuery store
        (pre.foldl (fun a q => processQuery store a (queryIndex q)) ⟨[], []⟩)
        (queryIndex q1)) := processQuery_inv hinv0
    have hx1 : x ∈ (processQuery store
        (pre.foldl (fun a q => processQuery store a (queryIndex q)) ⟨[], []⟩)
        (queryIndex q1)).seen_ids := by
      have hentry : entryFrom (queryIndex q1) d ∈ (processQuery store
          (pre.foldl (fun a q => processQuery store a (queryIndex q)) ⟨[], []⟩)
          (queryIndex q1)).all_results := by
        have hmem : entryFrom (queryIndex q1) d ∈ (processQuery store
            (pre.foldl (fun a q => processQuery store a (queryIndex q)) ⟨[], []⟩)
            (queryIndex q1)).all_results.filter (fun e => decide (e.id = x)) := by
          rw [h1]
          exact List.mem_singleton_self _
        exact (List.mem_filter.mp hmem).1
      rw [hinv1]
      have := List.mem_map_of_mem ResultEntry.id hentry
      simpa [entryFrom, hdx] using this
    rw [queries_foldl_filter_of_seen post _ hx1, h1]
  refine ⟨hmain, ?_, ?_⟩
  · show id_to_score (queryIndex q1) d._id = id_to_score (queryIndex q1) x
    rw [hdx]
  · intro r hr hrx
    have h2 := mem_all_of_mem_perform_search hr
    have h3 : r ∈ (all_search_results store queryIndex (pre ++ q1 :: post)).filter
        (fun e => decide (e.id = x)) :=
      List.mem_filter.mpr ⟨h2, by simp [hrx]⟩
    rw [hmain] at h3
    exact List.mem_singleton.mp h3

/-- Index behaviour for the C7 witness: query "q1" scores the id at 9,
any other query scores it at 3. -/
def exQI7 : String → List SearchHit :=
  fun q => if q = "q1" then [⟨"1706.03762", 9⟩] else [⟨"1706.03762", 3⟩]

/-- Witness for C7 at a concrete store and pair of queries: the entry
retained for the id matched by both queries carries the first query's
score (9, not 3). -/
theorem perform_search_first_query_wins_witness :
    exStoreQ.filter (fun m => decide (m._id = "1706.03762")) =
      [mkDoc "1706.03762" 1 PaperType.classic] ∧
    "1706.03762" ∈ (exQI7 "q1").map SearchHit.id ∧
    "1706.03762" ∈ (exQI7 "q2").map SearchHit.id ∧
    id_to_score (exQI7 "q1") "1706.03762" ≠ id_to_score (exQI7 "q2") "1706.03762" ∧
    ((all_search_results exStoreQ exQI7 ["q1", "q2"]).filter
        (fun e => decide (e.id = "1706.03762")) =
      [entryFrom (exQI7 "q1") (mkDoc "1706.03762" 1 PaperType.classic)] ∧
     (entryFrom (exQI7 "q1") (mkDoc "1706.03762" 1 PaperType.classic)).score =
       id_to_score (exQI7 "q1") "1706.03762" ∧
     (∀ r ∈ perform_search exStoreQ exQI7 ["q1", "q2"],
       r.id = "1706.03762" →
       r = entryFrom (exQI7 "q1") (mkDoc "1706.03762" 1 PaperType.classic))) ∧
    perform_search exStoreQ exQI7 ["q1", "q2"] =
      [⟨"1706.03762", 9, "", "", "", "", PaperType.classic⟩] :=
  ⟨by decide, by decide, by decide, by decide,
    perform_search_first_query_wins exStoreQ exQI7 [] ["q2"] "q1" "1706.03762"
      (mkDoc "1706.03762" 1 PaperType.classic) (by decide)
      (fun q h => absurd h (List.not_mem_nil q)) (by decide),
    by decide⟩

/-! ## Ingestion Pipeline (classic mode `ingest_classic_papers` and the
recent-mode loop of src/ingest_data.py). The arXiv client and the embedding
model are parameters (`fetchMeta`, `embed`); `datetime.now(timezone.utc)`
is modelled by a monotone `Nat` clock incremented per staged write. -/

def MAX_ITEMS : Nat := 30000

def RECENT_ITEMS : Nat := 27000

def CLASSIC_ITEMS : Nat := 3000

def BATCH_SIZE : Nat := 200

/-- `summary.replace("\\n", " ")`: for the single-character pattern the
Python replace is exactly a character-wise map collapsing newlines to
spaces. -/
def cleanSummary (s : String) : String :=
  String.mk (s.data.map (fun c => if c = '\n' then ' ' else c))

/-- The record returned by `fetch_arxiv_metadata`: note `_id` is the clean
id parsed from the fetched record (`paper.entry_id.split("/")[-1]`), which
need not equal the requested candidate id. -/
structure Meta where
  _id : String
  title : String
  summary : String
  authors : String
  pdf_url : String
deriving DecidableEq, Repr

/-- One staged `operations.UpdateOne({"_id": doc_id}, {"$set": {...}},
upsert=True)` with the full field set both modes write. -/
structure UpdateOp where
  _id : String
  title : String
  summary : String
  authors : String
  pdf_url : String
  ingested_at : Nat
  type : PaperType
deriving DecidableEq, Repr

/-- The state of an ingestion run: both stores, the processed-id set, the
two staging buffers, the write clock, and `papers_ingested_count`. -/
structure IngestState where
  store : List Doc
  index : List (String × Vec)
  processed : List String
  vectors_batch : List (String × Vec)
  mongo_batch : List UpdateOp
  clock : Nat
  count : Nat
deriving DecidableEq, Repr

/-- Applying one `UpdateOne` with `upsert=True`: set every `$set` field on
the (unique) document matching the id filter, or insert a fresh document
when none matches. -/
def applyUpdateOne : List Doc → UpdateOp → List Doc
  | [], op =>
    [⟨op._id, op.title, op.summary, op.authors, op.pdf_url, op.ingested_at, op.type⟩]
  | d :: rest, op =>
    if d._id = op._id then
      ⟨d._id, op.title, op.summary, op.authors, op.pdf_url, op.ingested_at, op.type⟩ :: rest
    else
      d :: applyUpdateOne rest op

/-- `collection.bulk_write(mongo_batch)` (ordered). -/
def bulk_write (store : List Doc) (ops : List UpdateOp) : List Doc :=
  ops.foldl applyUpdateOne store

/-- Upserting one `(id, vector)` pair into the Vector Index. -/
def upsertOne : List (String × Vec) → String × Vec → List (String × Vec)
  | [], v => [v]
  | p :: rest, v => if p.1 = v.1 then v :: rest else p :: upsertOne rest v

/-- `index.upsert(vectors=vectors_batch)`. -/
def indexUpsert (idx : List (String × Vec)) (vecs : List (String × Vec)) :
    List (String × Vec) :=
  vecs.foldl upsertOne idx

/-- A flush: upsert the vector batch into the Vector Index, bulk-apply the
metadata operations into the Metadata Store, and clear both buffers. -/
def flushBatches (st : IngestState) : IngestState :=
  { st with
    index := indexUpsert st.index st.vectors_batch,
    store := bulk_write st.store st.mongo_batch,
    vectors_batch := [],
    mongo_batch := [] }

/-- The body of classic mode's `for arxiv_id in new_classic_ids`: fetch
metadata (skip on failure), embed `"Title: ... . Abstract: ..."`, stage the
vector and the `type="classic"` upsert, mark processed, and flush when the
staged count reaches `BATCH_SIZE`. -/
def stageClassic (embed : String → Vec) (st : IngestState) (meta : Meta) :
    IngestState :=
  let cleaned := cleanSummary meta.summary
  let embedding := embed ("Title: " ++ meta.title ++ ". Abstract: " ++ cleaned)
  { st with
    vectors_batch := st.vectors_batch ++ [(meta._id, embedding)],
    mongo_batch := st.mongo_batch ++
      [⟨meta._id, meta.title, cleaned, meta.authors, meta.pdf_url, st.clock,
        PaperType.classic⟩],
    processed := st.processed ++ [meta._id],
    clock := st.clock + 1 }

def classicStep (fetchMeta : String → Option Meta) (embed : String → Vec)
    (st : IngestState) (arxiv_id : String) : IngestState :=
  match fetchMeta arxiv_id with
  | none => st
  | some meta =>
    let st' := stageClassic embed st meta
    if BATCH_SIZE ≤ st'.vectors_batch.length then flushBatches st' else st'

/-- `ingest_classic_papers` after candidate discovery: drop candidates
already processed, return unchanged when none are new, otherwise ingest
id-by-id and flush any non-empty remainder. (The script calls this with
empty staging buffers — they are locals there.) -/
def ingest_classic_papers_run (fetchMeta : String → Option Meta) (embed : String → Vec)
    (st : IngestState) (candidate_ids : List String) : IngestState :=
  let new_classic_ids := candidate_ids.filter (fun cid => ¬ cid ∈ st.processed)
  if new_classic_ids = [] then st
  else
    let st' := new_classic_ids.foldl (classicStep fetchMeta embed) st
    if st'.vectors_batch ≠ [] then flushBatches st' else st'

/-- One record yielded by the recent-mode arXiv search; `doc_id` is
`paper.entry_id.split("/")[-1]`. -/
structure ArxivPaper where
  doc_id : String
  title : String
  summary : String
  authors : String
  pdf_url : String
deriving DecidableEq, Repr

/-- The staging part of the recent-mode loop body (runs when the id is not
yet processed): embed, stage the vector and the `type="recent"` upsert,
mark processed, bump the counter, and flush at the batch threshold. -/
def stageRecent (embed : String → Vec) (st : IngestState) (p : ArxivPaper) :
    IngestState :=
  let cleaned := cleanSummary p.summary
  let embedding := embed ("Title: " ++ p.title ++ ". Abstract: " ++ cleaned)
  { st with
    vectors_batch := st.vectors_batch ++ [(p.doc_id, embedding)],
    mongo_batch := st.mongo_batch ++
      [⟨p.doc_id, p.title, cleaned, p.authors, p.pdf_url, st.clock,
        PaperType.recent⟩],
    processed := st.processed ++ [p.doc_id],
    clock := st.clock + 1,
    count := st.count + 1 }

def recentStage (embed : String → Vec) (st : IngestState) (p : ArxivPaper) :
    IngestState :=
  let st' := stageRecent embed st p
  if BATCH_SIZE ≤ st'.vectors_batch.length then flushBatches st' else st'

/-- `for paper in results`: skip already-processed ids (`continue`),
otherwise stage and break out of the week once the target count is
reached. -/
def recentWeek (embed : String → Vec) (target : Nat) :
    List ArxivPaper → IngestState → IngestState
  | [], st => st
  | p :: rest, st =>
    if p.doc_id ∈ st.processed then recentWeek embed target rest st
    else
      let st' := recentStage embed st p
      if target ≤ st'.count then st' else recentWeek embed target rest st'

/-- The recent-mode outer loop over weekly windows (`while
papers_ingested_count < RECENT_ITEMS`, bounded by the 156-week ceiling that
makes `weeks` finite), followed by the final remainder flush
(`if vectors_batch: ...`). A week whose fetch raised is an empty list. -/
def recentRun (embed : String → Vec) (target : Nat)
    (weeks : List (List ArxivPaper)) (st : IngestState) : IngestState :=
  let stLoop := weeks.foldl
    (fun s week => if s.count < target then recentWeek embed target week s else s) st
  if stLoop.vectors_batch ≠ [] then flushBatches stLoop else stLoop

/-- `ingest_classic_papers(collection, index, processed_ids, limit)` in
full: hybrid discovery (capped GitHub source united with the ranked-API
source) followed by the ingestion loop. -/
def ingest_classic_papers (fetchMeta : String → Option Meta) (embed : String → Vec)
    (pages : List (Option (List String))) (resps : Nat → SSResp)
    (st : IngestState) (limit : Nat) : IngestState :=
  ingest_classic_papers_run fetchMeta embed st (combined_ids pages resps limit)

/-- The document ids after one upsert: unchanged when the id existed,
extended by the new id otherwise. -/
theorem applyUpdateOne_ids (op : UpdateOp) :
    ∀ (store : List Doc),
      (applyUpdateOne store op).map Doc._id =
        if op._id ∈ store.map Doc._id then store.map Doc._id
        else store.map Doc._id ++ [op._id] := by
  intro store
  induction store with
  | nil => simp [applyUpdateOne]
  | cons d rest ih =>
      by_cases h : d._id = op._id
      · rw [applyUpdateOne, if_pos h]
        simp [h]
      · rw [applyUpdateOne, if_neg h]
        have hne : ¬ op._id = d._id := fun hc => h hc.symm
        by_cases hc : op._id ∈ rest.map Doc._id
        · simp [ih, hc, hne]
        · simp [ih, hc, hne]

/-- The vector ids after one upsert: unchanged when the id existed,
extended by the new id otherwise. -/
theorem upsertOne_ids (v : String × Vec) :
    ∀ (idx : List (String × Vec)),
      (upsertOne idx v).map Prod.fst =
        if v.1 ∈ idx.map Prod.fst then idx.map Prod.fst
        else idx.map Prod.fst ++ [v.1] := by
  intro idx
  induction idx with
  | nil => simp [upsertOne]
  | cons p rest ih =>
      by_cases h : p.1 = v.1
      · rw [upsertOne, if_pos h]
        simp [h]
      · rw [upsertOne, if_neg h]
        have hne : ¬ v.1 = p.1 := fun hc => h hc.symm
        by_cases hc : v.1 ∈ rest.map Prod.fst
        · simp [ih, hc, hne]
        · simp [ih, hc, hne]

/-- Membership in the store ids after an ordered bulk write. -/
theorem bulk_write_ids_mem {y : String} :
    ∀ (ops : List UpdateOp) (store : List Doc),
      (y ∈ (bulk_write store ops).map Doc._id ↔
        y ∈ store.map Doc._id ∨ y ∈ ops.map UpdateOp._id) := by
  intro ops
  induction ops with
  | nil => intro store; simp [bulk_write]
  | cons op rest ih =>
      intro store
      show y ∈ (bulk_write (applyUpdateOne store op) rest).map Doc._id ↔ _
      rw [ih, applyUpdateOne_ids]
      by_cases hc : op._id ∈ store.map Doc._id
      · rw [if_pos hc]
        simp only [List.map_cons, List.mem_cons]
        constructor
        · rintro (h | h)
          · exact Or.inl h
          · exact Or.inr (Or.inr h)
        · rintro (h | h | h)
          · exact Or.inl h
          · exact Or.inl (h ▸ hc)
          · exact Or.inr h
      · rw [if_neg hc]
        simp only [List.mem_append, List.mem_singleton, List.map_cons, List.mem_cons]
        tauto

/-- Membership in the index ids after a batch upsert. -/
theorem indexUpsert_ids_mem {y : String} :
    ∀ (vecs : List (String × Vec)) (idx : List (String × Vec)),
      (y ∈ (indexUpsert idx vecs).map Prod.fst ↔
        y ∈ idx.map Prod.fst ∨ y ∈ vecs.map Prod.fst) := by
  intro vecs
  induction vecs with
  | nil => intro idx; simp [indexUpsert]
  | cons v rest ih =>
      intro idx
      show y ∈ (indexUpsert (upsertOne idx v) rest).map Prod.fst ↔ _
      rw [ih, upsertOne_ids]
      by_cases hc : v.1 ∈ idx.map Prod.fst
      · rw [if_pos hc]
        simp only [List.map_cons, List.mem_cons]
        constructor
        · rintro (h | h)
          · exact Or.inl h
          · exact Or.inr (Or.inr h)
        · rintro (h | h | h)
          · exact Or.inl h
          · exact Or.inl (h ▸ hc)
          · exact Or.inr h
      · rw [if_neg hc]
        simp only [List.mem_append, List.mem_singleton, List.map_cons, List.mem_cons]
        tauto

/-- An ordered bulk write preserves distinctness of document ids. -/
theorem bulk_write_nodup :
    ∀ (ops : List UpdateOp) (store : List Doc), (store.map Doc._id).Nodup →
      ((bulk_write store ops).map Doc._id).Nodup := by
  intro ops
  induction ops with
  | nil => intro store h; exact h
  | cons op rest ih =>
      intro store h
      show ((bulk_write (applyUpdateOne store op) rest).map Doc._id).Nodup
      apply ih
      rw [applyUpdateOne_ids]
      by_cases hc : op._id ∈ store.map Doc._id
      · rwa [if_pos hc]
      · rw [if_neg hc]
        refine List.nodup_append.mpr ⟨h, List.nodup_singleton _, ?_⟩
        intro a ha hax
        rw [List.mem_singleton] at hax
        subst hax
        exact hc ha

/-- After an upsert, the (unique) document under the written id carries
exactly the written fields — `ingested_at` and `type` included. -/
theorem applyUpdateOne_filter_eq (op : UpdateOp) :
    ∀ (store : List Doc), (store.map Doc._id).Nodup →
      (applyUpdateOne store op).filter (fun d => decide (d._id = op._id)) =
        [⟨op._id, op.title, op.summary, op.authors, op.pdf_url, op.ingested_at,
          op.type⟩] := by
  intro store
  induction store with
  | nil =>
      intro _
      simp [applyUpdateOne]
  | cons d rest ih =>
      intro hnodup
      rw [List.map_cons, List.nodup_cons] at hnodup
      by_cases h : d._id = op._id
      · rw [applyUpdateOne, if_pos h]
        rw [List.filter_cons, if_pos (by simpa using h)]
        have hrest : rest.filter (fun d => decide (d._id = op._id)) = [] := by
          apply List.filter_eq_nil_iff.mpr
          intro e he
          simp only [decide_eq_true_eq]
          intro heq
          exact hnodup.1 (h ▸ heq ▸ List.mem_map_of_mem Doc._id he)
        rw [hrest, h]
      · rw [applyUpdateOne, if_neg h]
        rw [List.filter_cons, if_neg (by simpa using h)]
        exact ih hnodup.2

/-- The C9 invariant: the staged vector batch and the staged metadata
operations hold the same ids in the same order. -/
def batchesAligned (st : IngestState) : Prop :=
  st.vectors_batch.map Prod.fst = st.mongo_batch.map UpdateOp._id

theorem flushBatches_aligned (st : IngestState) : batchesAligned (flushBatches st) := rfl

theorem stageClassic_aligned {embed : String → Vec} {st : IngestState} {meta : Meta}
    (h : batchesAligned st) : batchesAligned (stageClassic embed st meta) := by
  unfold batchesAligned stageClassic
  simp only [List.map_append, List.map_cons, List.map_nil]
  unfold batchesAligned at h
  rw [h]

theorem stageRecent_aligned {embed : String → Vec} {st : IngestState} {p : ArxivPaper}
    (h : batchesAligned st) : batchesAligned (stageRecent embed st p) := by
  unfold batchesAligned stageRecent
  simp only [List.map_append, List.map_cons, List.map_nil]
  unfold batchesAligned at h
  rw [h]

theorem classicStep_aligned {fetchMeta : String → Option Meta} {embed : String → Vec}
    {st : IngestState} {cid : String} (h : batchesAligned st) :
    batchesAligned (classicStep fetchMeta embed st cid) := by
  unfold classicStep
  cases hf : fetchMeta cid with
  | none => exact h
  | some meta =>
      show batchesAligned
        (if BATCH_SIZE ≤ (stageClassic embed st meta).vectors_batch.length then
          flushBatches (stageClassic embed st meta) else stageClassic embed st meta)
      by_cases hb : BATCH_SIZE ≤ (stageClassic embed st meta).vectors_batch.length
      · rw [if_pos hb]
        exact flushBatches_aligned _
      · rw [if_neg hb]
        exact stageClassic_aligned h

theorem recentStage_aligned {embed : String → Vec} {st : IngestState} {p : ArxivPaper}
    (h : batchesAligned st) : batchesAligned (recentStage embed st p) := by
  unfold recentStage
  show batchesAligned
    (if BATCH_SIZE ≤ (stageRecent embed st p).vectors_batch.length then
      flushBatches (stageRecent embed st p) else stageRecent embed st p)
  by_cases hb : BATCH_SIZE ≤ (stageRecent embed st p).vectors_batch.length
  · rw [if_pos hb]
    exact flushBatches_aligned _
  · rw [if_neg hb]
    exact stageRecent_aligned h

theorem foldl_classicStep_aligned {fetchMeta : String → Option Meta}
    {embed : String → Vec} :
    ∀ (ids : List String) (st : IngestState), batchesAligned st →
      batchesAligned (ids.foldl (classicStep fetchMeta embed) st) := by
  intro ids
  induction ids with
  | nil => intro st h; exact h
  | cons i rest ih => intro st h; exact ih _ (classicStep_aligned h)

theorem ingest_classic_run_aligned {fetchMeta : String → Option Meta}
    {embed : String → Vec} {st : IngestState} {candidates : List String}
    (h : batchesAligned st) :
    batchesAligned (ingest_classic_papers_run fetchMeta embed st candidates) := by
  unfold ingest_classic_papers_run
  by_cases hn : candidates.filter (fun cid => ¬ cid ∈ st.processed) = []
  · rw [if_pos hn]
    exact h
  · rw [if_neg hn]
    by_cases hv : ((candidates.filter (fun cid => ¬ cid ∈ st.processed)).foldl
        (classicStep fetchMeta embed) st).vectors_batch ≠ []
    · rw [if_pos hv]
      exact flushBatches_aligned _
    · rw [if_neg hv]
      exact foldl_classicStep_aligned _ _ h

theorem recentWeek_aligned {embed : String → Vec} {target : Nat} :
    ∀ (papers : List ArxivPaper) (st : IngestState), batchesAligned st →
      batchesAligned (recentWeek embed target papers st) := by
  intro papers
  induction papers with
  | nil => intro st h; exact h
  | cons p rest ih =>
      intro st h
      rw [recentWeek]
      by_cases hp : p.doc_id ∈ st.processed
      · rw [if_pos hp]
        exact ih st h
      · rw [if_neg hp]
        show batchesAligned
          (if target ≤ (recentStage embed st p).count then recentStage embed st p
            else recentWeek embed target rest (recentStage embed st p))
        by_cases hc : target ≤ (recentStage embed st p).count
        · rw [if_pos hc]
          exact recentStage_aligned h
        · rw [if_neg hc]
          exact ih _ (recentStage_aligned h)

theorem recentRun_aligned {embed : String → Vec} {target : Nat}
    {weeks : List (List ArxivPaper)} {st : IngestState} (h : batchesAligned st) :
    batchesAligned (recentRun embed target weeks st) := by
  unfold recentRun
  have hfold : ∀ (ws : List (List ArxivPaper)) (s : IngestState), batchesAligned s →
      batchesAligned (ws.foldl
        (fun s week => if s.count < target then recentWeek embed target week s else s) s) := by
    intro ws
    induction ws with
    | nil => intro s hs; exact hs
    | cons w rest ih =>
        intro s hs
        rw [List.foldl_cons]
        apply ih
        by_cases hc : s.count < target
        · rw [if_pos hc]
          exact recentWeek_aligned w s hs
        · rw [if_neg hc]
          exact hs
  by_cases hv : (weeks.foldl
      (fun s week => if s.count < target then recentWeek embed target week s else s)
      st).vectors_batch ≠ []
  · rw [if_pos hv]
    exact flushBatches_aligned _
  · rw [if_neg hv]
    exact hfold weeks st h

/-- C9: throughout both ingestion modes the staged vector batch and the
staged metadata-operation batch hold the same ids in the same order (hence
equal lengths), and a flush writes exactly the vector batch's ids into both
the Vector Index and the Metadata Store. -/
theorem ingestion_batches_same_ids (fetchMeta : String → Option Meta)
    (embed : String → Vec) (st : IngestState) (cid : String) (p : ArxivPaper)
    (candidates : List String) (papers : List ArxivPaper)
    (weeks : List (List ArxivPaper)) (target : Nat)
    (h : batchesAligned st) :
    batchesAligned (classicStep fetchMeta embed st cid) ∧
    batchesAligned (ingest_classic_papers_run fetchMeta embed st candidates) ∧
    batchesAligned (recentStage embed st p) ∧
    batchesAligned (recentWeek embed target papers st) ∧
    batchesAligned (recentRun embed target weeks st) ∧
    st.vectors_batch.length = st.mongo_batch.length ∧
    (∀ y, (y ∈ (flushBatches st).index.map Prod.fst ↔
            y ∈ st.index.map Prod.fst ∨ y ∈ st.vectors_batch.map Prod.fst) ∧
          (y ∈ (flushBatches st).store.map Doc._id ↔
            y ∈ st.store.map Doc._id ∨ y ∈ st.vectors_batch.map Prod.fst)) := by
  refine ⟨classicStep_aligned h, ingest_classic_run_aligned h, recentStage_aligned h,
    recentWeek_aligned papers st h, recentRun_aligned h, ?_, ?_⟩
  · have := congrArg List.length h
    simpa using this
  · intro y
    constructor
    · exact indexUpsert_ids_mem st.vectors_batch st.index
    · show y ∈ (bulk_write st.store st.mongo_batch).map Doc._id ↔ _
      rw [bulk_write_ids_mem, ← h]

/-- Witness for C9 at a concrete one-item staged state. -/
theorem ingestion_batches_same_ids_witness :
    batchesAligned ⟨[], [], [], [("1706.03762", 0)],
      [⟨"1706.03762", "t", "s", "a", "u", 0, PaperType.recent⟩], 1, 0⟩ ∧
    (⟨[], [], [], [("1706.03762", 0)],
      [⟨"1706.03762", "t", "s", "a", "u", 0, PaperType.recent⟩], 1, 0⟩ :
        IngestState).vectors_batch.length =
      (⟨[], [], [], [("1706.03762", 0)],
        [⟨"1706.03762", "t", "s", "a", "u", 0, PaperType.recent⟩], 1, 0⟩ :
          IngestState).mongo_batch.length :=
  ⟨rfl,
    (ingestion_batches_same_ids (fun _ => none) (fun _ => 0)
      ⟨[], [], [], [("1706.03762", 0)],
        [⟨"1706.03762", "t", "s", "a", "u", 0, PaperType.recent⟩], 1, 0⟩
      "c" ⟨"p", "", "", "", ""⟩ [] [] [] 0 rfl).2.2.2.2.2.1⟩

theorem stageClassic_batch_length (embed : String → Vec) (st : IngestState)
    (meta : Meta) :
    (stageClassic embed st meta).vectors_batch.length = st.vectors_batch.length + 1 := by
  unfold stageClassic
  simp

theorem stageRecent_batch_length (embed : String → Vec) (st : IngestState)
    (p : ArxivPaper) :
    (stageRecent embed st p).vectors_batch.length = st.vectors_batch.length + 1 := by
  unfold stageRecent
  simp

/-- The classic-mode step flushes exactly when staging reaches the batch
threshold, and otherwise just stages. -/
theorem classicStep_threshold {fetchMeta : String → Option Meta} {embed : String → Vec}
    {st : IngestState} {cid : String} {meta : Meta}
    (hmeta : fetchMeta cid = some meta) :
    (st.vectors_batch.length + 1 = BATCH_SIZE →
      classicStep fetchMeta embed st cid = flushBatches (stageClassic embed st meta)) ∧
    (st.vectors_batch.length + 1 < BATCH_SIZE →
      classicStep fetchMeta embed st cid = stageClassic embed st meta) := by
  constructor <;> intro hl <;> unfold classicStep <;> rw [hmeta] <;>
    show (if BATCH_SIZE ≤ (stageClassic embed st meta).vectors_batch.length then
      flushBatches (stageClassic embed st meta) else stageClassic embed st meta) = _
  · rw [if_pos (by rw [stageClassic_batch_length]; omega)]
  · rw [if_neg (by rw [stageClassic_batch_length]; omega)]

/-- The recent-mode staging flushes exactly when it reaches the batch
threshold, and otherwise just stages. -/
theorem recentStage_threshold {embed : String → Vec} {st : IngestState}
    {p : ArxivPaper} :
    (st.vectors_batch.length + 1 = BATCH_SIZE →
      recentStage embed st p = flushBatches (stageRecent embed st p)) ∧
    (st.vectors_batch.length + 1 < BATCH_SIZE →
      recentStage embed st p = stageRecent embed st p) := by
  constructor <;> intro hl <;> unfold recentStage <;>
    show (if BATCH_SIZE ≤ (stageRecent embed st p).vectors_batch.length then
      flushBatches (stageRecent embed st p) else stageRecent embed st p) = _
  · rw [if_pos (by rw [stageRecent_batch_length]; omega)]
  · rw [if_neg (by rw [stageRecent_batch_length]; omega)]

/-- The staged count always stays below the threshold after a classic step. -/
theorem classicStep_bound {fetchMeta : String → Option Meta} {embed : String → Vec}
    {st : IngestState} {cid : String}
    (hlt : st.vectors_batch.length < BATCH_SIZE) :
    (classicStep fetchMeta embed st cid).vectors_batch.length < BATCH_SIZE := by
  unfold classicStep
  cases hf : fetchMeta cid with
  | none => exact hlt
  | some meta =>
      show (if BATCH_SIZE ≤ (stageClassic embed st meta).vectors_batch.length then
        flushBatches (stageClassic embed st meta) else stageClassic embed st meta
          ).vectors_batch.length < BATCH_SIZE
      by_cases hb : BATCH_SIZE ≤ (stageClassic embed st meta).vectors_batch.length
      · rw [if_pos hb]
        show ([] : List (String × Vec)).length < BATCH_SIZE
        show 0 < BATCH_SIZE
        decide
      · rw [if_neg hb]
        omega

/-- The staged count always stays below the threshold after a recent-mode
staging step. -/
theorem recentStage_bound {embed : String → Vec} {st : IngestState} {p : ArxivPaper}
    (hlt : st.vectors_batch.length < BATCH_SIZE) :
    (recentStage embed st p).vectors_batch.length < BATCH_SIZE := by
  unfold recentStage
  show (if BATCH_SIZE ≤ (stageRecent embed st p).vectors_batch.length then
    flushBatches (stageRecent embed st p) else stageRecent embed st p
      ).vectors_batch.length < BATCH_SIZE
  by_cases hb : BATCH_SIZE ≤ (stageRecent embed st p).vectors_batch.length
  · rw [if_pos hb]
    show 0 < BATCH_SIZE
    decide
  · rw [if_neg hb]
    omega

/-- A classic run entered with empty buffers ends with empty buffers: the
remainder below the threshold is flushed at the end. -/
theorem ingest_classic_run_buffers {fetchMeta : String → Option Meta}
    {embed : String → Vec} {st : IngestState} {candidates : List String}
    (hv : st.vectors_batch = []) (hm : st.mongo_batch = []) :
    (ingest_classic_papers_run fetchMeta embed st candidates).vectors_batch = [] ∧
    (ingest_classic_papers_run fetchMeta embed st candidates).mongo_batch = [] := by
  have hal : batchesAligned st := by
    unfold batchesAligned
    rw [hv, hm]
    rfl
  unfold ingest_classic_papers_run
  by_cases hn : candidates.filter (fun cid => ¬ cid ∈ st.processed) = []
  · rw [if_pos hn]
    exact ⟨hv, hm⟩
  · rw [if_neg hn]
    by_cases hvb : ((candidates.filter (fun cid => ¬ cid ∈ st.processed)).foldl
        (classicStep fetchMeta embed) st).vectors_batch ≠ []
    · rw [if_pos hvb]
      exact ⟨rfl, rfl⟩
    · rw [if_neg hvb]
      rw [not_ne_iff] at hvb
      have halF := @foldl_classicStep_aligned fetchMeta embed
        (candidates.filter (fun cid => ¬ cid ∈ st.processed)) st hal
      unfold batchesAligned at halF
      rw [hvb] at halF
      exact ⟨hvb, List.map_eq_nil_iff.mp halF.symm⟩

/-- A recent-mode run entered with empty buffers ends with empty buffers:
the remainder below the threshold is flushed at the end. -/
theorem recentRun_buffers {embed : String → Vec} {target : Nat}
    {weeks : List (List ArxivPaper)} {st : IngestState}
    (hv : st.vectors_batch = []) (hm : st.mongo_batch = []) :
    (recentRun embed target weeks st).vectors_batch = [] ∧
    (recentRun embed target weeks st).mongo_batch = [] := by
  have hal : batchesAligned st := by
    unfold batchesAligned
    rw [hv, hm]
    rfl
  unfold recentRun
  by_cases hvb : (weeks.foldl
      (fun s week => if s.count < target then recentWeek embed target week s else s)
      st).vectors_batch ≠ []
  · rw [if_pos hvb]
    exact ⟨rfl, rfl⟩
  · rw [if_neg hvb]
    rw [not_ne_iff] at hvb
    have halF : batchesAligned (weeks.foldl
        (fun s week => if s.count < target then recentWeek embed target week s else s)
        st) := by
      have hfold : ∀ (ws : List (List ArxivPaper)) (s : IngestState), batchesAligned s →
          batchesAligned (ws.foldl
            (fun s week => if s.count < target then recentWeek embed target week s else s)
            s) := by
        intro ws
        induction ws with
        | nil => intro s hs; exact hs
        | cons w rest ih =>
            intro s hs
            rw [List.foldl_cons]
            apply ih
            by_cases hc : s.count < target
            · rw [if_pos hc]
              exact recentWeek_aligned w s hs
            · rw [if_neg hc]
              exact hs
      exact hfold weeks st hal
    unfold batchesAligned at halF
    rw [hvb] at halF
    exact ⟨hvb, List.map_eq_nil_iff.mp halF.symm⟩

/-- Tracking invariant for the no-drop property: every processed id either
predates the run (`base`), sits in the staging buffer, or has already been
written to both stores. -/
def idsSettled (base : List String) (st : IngestState) : Prop :=
  ∀ y ∈ st.processed, y ∈ base ∨ y ∈ st.vectors_batch.map Prod.fst ∨
    (y ∈ st.index.map Prod.fst ∧ y ∈ st.store.map Doc._id)

theorem stageClassic_settled {embed : String → Vec} {st : IngestState} {meta : Meta}
    {base : List String} (h : idsSettled base st) :
    idsSettled base (stageClassic embed st meta) := by
  intro y hy
  have hy' : y ∈ st.processed ++ [meta._id] := hy
  rcases List.mem_append.mp hy' with h1 | h1
  · rcases h y h1 with hb | hb | hb
    · exact Or.inl hb
    · refine Or.inr (Or.inl ?_)
      show y ∈ (st.vectors_batch ++ [(meta._id, _)]).map Prod.fst
      rw [List.map_append]
      exact List.mem_append_left _ hb
    · exact Or.inr (Or.inr hb)
  · have hm : y = meta._id := List.mem_singleton.mp h1
    refine Or.inr (Or.inl ?_)
    show y ∈ (st.vectors_batch ++ [(meta._id, _)]).map Prod.fst
    rw [List.map_append, hm]
    refine List.mem_append_right _ ?_
    simp

theorem stageRecent_settled {embed : String → Vec} {st : IngestState} {p : ArxivPaper}
    {base : List String} (h : idsSettled base st) :
    idsSettled base (stageRecent embed st p) := by
  intro y hy
  have hy' : y ∈ st.processed ++ [p.doc_id] := hy
  rcases List.mem_append.mp hy' with h1 | h1
  · rcases h y h1 with hb | hb | hb
    · exact Or.inl hb
    · refine Or.inr (Or.inl ?_)
      show y ∈ (st.vectors_batch ++ [(p.doc_id, _)]).map Prod.fst
      rw [List.map_append]
      exact List.mem_append_left _ hb
    · exact Or.inr (Or.inr hb)
  · have hm : y = p.doc_id := List.mem_singleton.mp h1
    refine Or.inr (Or.inl ?_)
    show y ∈ (st.vectors_batch ++ [(p.doc_id, _)]).map Prod.fst
    rw [List.map_append, hm]
    refine List.mem_append_right _ ?_
    simp

theorem flushBatches_settled {st : IngestState} {base : List String}
    (hal : batchesAligned st) (h : idsSettled base st) :
    idsSettled base (flushBatches st) := by
  intro y hy
  have hy' : y ∈ st.processed := hy
  rcases h y hy' with hb | hb | hb
  · exact Or.inl hb
  · refine Or.inr (Or.inr ⟨?_, ?_⟩)
    · show y ∈ (indexUpsert st.index st.vectors_batch).map Prod.fst
      exact (indexUpsert_ids_mem _ _).mpr (Or.inr hb)
    · show y ∈ (bulk_write st.store st.mongo_batch).map Doc._id
      exact (bulk_write_ids_mem _ _).mpr (Or.inr (hal ▸ hb))
  · refine Or.inr (Or.inr ⟨?_, ?_⟩)
    · show y ∈ (indexUpsert st.index st.vectors_batch).map Prod.fst
      exact (indexUpsert_ids_mem _ _).mpr (Or.inl hb.1)
    · show y ∈ (bulk_write st.store st.mongo_batch).map Doc._id
      exact (bulk_write_ids_mem _ _).mpr (Or.inl hb.2)

theorem classicStep_settled {fetchMeta : String → Option Meta} {embed : String → Vec}
    {st : IngestState} {cid : String} {base : List String}
    (hal : batchesAligned st) (h : idsSettled base st) :
    idsSettled base (classicStep fetchMeta embed st cid) := by
  unfold classicStep
  cases hf : fetchMeta cid with
  | none => exact h
  | some meta =>
      show idsSettled base
        (if BATCH_SIZE ≤ (stageClassic embed st meta).vectors_batch.length then
          flushBatches (stageClassic embed st meta) else stageClassic embed st meta)
      by_cases hb : BATCH_SIZE ≤ (stageClassic embed st meta).vectors_batch.length
      · rw [if_pos hb]
        exact flushBatches_settled (stageClassic_aligned hal) (stageClassic_settled h)
      · rw [if_neg hb]
        exact stageClassic_settled h

theorem recentStage_settled {embed : String → Vec} {st : IngestState} {p : ArxivPaper}
    {base : List String} (hal : batchesAligned st) (h : idsSettled base st) :
    idsSettled base (recentStage embed st p) := by
  unfold recentStage
  show idsSettled base
    (if BATCH_SIZE ≤ (stageRecent embed st p).vectors_batch.length then
      flushBatches (stageRecent embed st p) else stageRecent embed st p)
  by_cases hb : BATCH_SIZE ≤ (stageRecent embed st p).vectors_batch.length
  · rw [if_pos hb]
    exact flushBatches_settled (stageRecent_aligned hal) (stageRecent_settled h)
  · rw [if_neg hb]
    exact stageRecent_settled h

theorem foldl_classicStep_settled {fetchMeta : String → Option Meta}
    {embed : String → Vec} {base : List String} :
    ∀ (ids : List String) (st : IngestState), batchesAligned st → idsSettled base st →
      idsSettled base (ids.foldl (classicStep fetchMeta embed) st) := by
  intro ids
  induction ids with
  | nil => intro st _ h; exact h
  | cons i rest ih =>
      intro st hal h
      exact ih _ (classicStep_aligned hal) (classicStep_settled hal h)

theorem recentWeek_settled {embed : String → Vec} {target : Nat} {base : List String} :
    ∀ (papers : List ArxivPaper) (st : IngestState), batchesAligned st →
      idsSettled base st → idsSettled base (recentWeek embed target papers st) := by
  intro papers
  induction papers with
  | nil => intro st _ h; exact h
  | cons p rest ih =>
      intro st hal h
      rw [recentWeek]
      by_cases hp : p.doc_id ∈ st.processed
      · rw [if_pos hp]
        exact ih st hal h
      · rw [if_neg hp]
        show idsSettled base
          (if target ≤ (recentStage embed st p).count then recentStage embed st p
            else recentWeek embed target rest (recentStage embed st p))
        by_cases hc : target ≤ (recentStage embed st p).count
        · rw [if_pos hc]
          exact recentStage_settled hal h
        · rw [if_neg hc]
          exact ih _ (recentStage_aligned hal) (recentStage_settled hal h)

theorem weeks_foldl_settled {embed : String → Vec} {target : Nat} {base : List String} :
    ∀ (weeks : List (List ArxivPaper)) (st : IngestState), batchesAligned st →
      idsSettled base st →
      idsSettled base (weeks.foldl
        (fun s week => if s.count < target then recentWeek embed target week s else s) st) := by
  intro weeks
  induction weeks with
  | nil => intro st _ h; exact h
  | cons w rest ih =>
      intro st hal h
      rw [List.foldl_cons]
      by_cases hc : st.count < target
      · rw [if_pos hc]
        exact ih _ (recentWeek_aligned w st hal) (recentWeek_settled w st hal h)
      · rw [if_neg hc]
        exact ih _ hal h

/-- No staged item is dropped by a classic run entered with empty buffers:
every id processed during the run ends up in both stores. -/
theorem ingest_classic_run_no_drop {fetchMeta : String → Option Meta}
    {embed : String → Vec} {st : IngestState} {candidates : List String}
    (hv : st.vectors_batch = []) (hm : st.mongo_batch = []) :
    ∀ y ∈ (ingest_classic_papers_run fetchMeta embed st candidates).processed,
      y ∈ st.processed ∨
      (y ∈ (ingest_classic_papers_run fetchMeta embed st candidates).index.map Prod.fst ∧
       y ∈ (ingest_classic_papers_run fetchMeta embed st candidates).store.map Doc._id) := by
  have hal : batchesAligned st := by
    unfold batchesAligned
    rw [hv, hm]
    rfl
  have hset : idsSettled st.processed st := fun y hy => Or.inl hy
  have hres : idsSettled st.processed
      (ingest_classic_papers_run fetchMeta embed st candidates) := by
    unfold ingest_classic_papers_run
    by_cases hn : candidates.filter (fun cid => ¬ cid ∈ st.processed) = []
    · rw [if_pos hn]
      exact hset
    · rw [if_neg hn]
      by_cases hvb : ((candidates.filter (fun cid => ¬ cid ∈ st.processed)).foldl
          (classicStep fetchMeta embed) st).vectors_batch ≠ []
      · rw [if_pos hvb]
        exact flushBatches_settled (foldl_classicStep_aligned _ _ hal)
          (foldl_classicStep_settled _ _ hal hset)
      · rw [if_neg hvb]
        exact foldl_classicStep_settled _ _ hal hset
  have hbufv : (ingest_classic_papers_run fetchMeta embed st candidates).vectors_batch
      = [] := (ingest_classic_run_buffers hv hm).1
  intro y hy
  rcases hres y hy with h1 | h1 | h1
  · exact Or.inl h1
  · rw [hbufv] at h1
    simp at h1
  · exact Or.inr h1

/-- No staged item is dropped by a recent-mode run entered with empty
buffers: every id processed during the run ends up in both stores. -/
theorem recentRun_no_drop {embed : String → Vec} {target : Nat}
    {weeks : List (List ArxivPaper)} {st : IngestState}
    (hv : st.vectors_batch = []) (hm : st.mongo_batch = []) :
    ∀ y ∈ (recentRun embed target weeks st).processed,
      y ∈ st.processed ∨
      (y ∈ (recentRun embed target weeks st).index.map Prod.fst ∧
       y ∈ (recentRun embed target weeks st).store.map Doc._id) := by
  have hal : batchesAligned st := by
    unfold batchesAligned
    rw [hv, hm]
    rfl
  have hset : idsSettled st.processed st := fun y hy => Or.inl hy
  have hres : idsSettled st.processed (recentRun embed target weeks st) := by
    unfold recentRun
    by_cases hvb : (weeks.foldl
        (fun s week => if s.count < target then recentWeek embed target week s else s)
        st).vectors_batch ≠ []
    · rw [if_pos hvb]
      exact flushBatches_settled
        (by
          have hfold : ∀ (ws : List (List ArxivPaper)) (s : IngestState),
              batchesAligned s →
              batchesAligned (ws.foldl
                (fun s week => if s.count < target then recentWeek embed target week s
                  else s) s) := by
            intro ws
            induction ws with
            | nil => intro s hs; exact hs
            | cons w rest ih =>
                intro s hs
                rw [List.foldl_cons]
                apply ih
                by_cases hc : s.count < target
                · rw [if_pos hc]
                  exact recentWeek_aligned w s hs
                · rw [if_neg hc]
                  exact hs
          exact hfold weeks st hal)
        (weeks_foldl_settled weeks st hal hset)
    · rw [if_neg hvb]
      exact weeks_foldl_settled weeks st hal hset
  have hbufv : (recentRun embed target weeks st).vectors_batch = [] :=
    (recentRun_buffers hv hm).1
  intro y hy
  rcases hres y hy with h1 | h1 | h1
  · exact Or.inl h1
  · rw [hbufv] at h1
    simp at h1
  · exact Or.inr h1

/-- C5: in both ingestion modes, a staging step that brings the staged
count to the threshold (`BATCH_SIZE = 200`) immediately flushes — the
vector batch is upserted into the Vector Index, the metadata operations are
bulk-applied into the Metadata Store, and both buffers are cleared
(`flushBatches`) — while a step below the threshold only stages; the staged
count therefore always stays below the threshold; and a run of either mode
entered with empty buffers ends with empty buffers (the non-empty remainder
is flushed at the end), so every id staged during a run ends up written to
both stores — no staged item is silently dropped. -/
theorem batching_flush_contract (fetchMeta : String → Option Meta)
    (embed : String → Vec) (st : IngestState) (cid : String) (meta : Meta)
    (p : ArxivPaper) (candidates : List String) (weeks : List (List ArxivPaper))
    (target : Nat) :
    (fetchMeta cid = some meta →
      (st.vectors_batch.length + 1 = BATCH_SIZE →
        classicStep fetchMeta embed st cid = flushBatches (stageClassic embed st meta)) ∧
      (st.vectors_batch.length + 1 < BATCH_SIZE →
        classicStep fetchMeta embed st cid = stageClassic embed st meta)) ∧
    ((st.vectors_batch.length + 1 = BATCH_SIZE →
        recentStage embed st p = flushBatches (stageRecent embed st p)) ∧
      (st.vectors_batch.length + 1 < BATCH_SIZE →
        recentStage embed st p = stageRecent embed st p)) ∧
    (st.vectors_batch.length < BATCH_SIZE →
      (classicStep fetchMeta embed st cid).vectors_batch.length < BATCH_SIZE ∧
      (recentStage embed st p).vectors_batch.length < BATCH_SIZE) ∧
    (st.vectors_batch = [] → st.mongo_batch = [] →
      ((ingest_classic_papers_run fetchMeta embed st candidates).vectors_batch = [] ∧
       (ingest_classic_papers_run fetchMeta embed st candidates).mongo_batch = []) ∧
      ((recentRun embed target weeks st).vectors_batch = [] ∧
       (recentRun embed target weeks st).mongo_batch = []) ∧
      (∀ y ∈ (ingest_classic_papers_run fetchMeta embed st candidates).processed,
        y ∈ st.processed ∨
        (y ∈ (ingest_classic_papers_run fetchMeta embed st candidates).index.map
            Prod.fst ∧
         y ∈ (ingest_classic_papers_run fetchMeta embed st candidates).store.map
            Doc._id)) ∧
      (∀ y ∈ (recentRun embed target weeks st).processed,
        y ∈ st.processed ∨
        (y ∈ (recentRun embed target weeks st).index.map Prod.fst ∧
         y ∈ (recentRun embed target weeks st).store.map Doc._id))) := by
  refine ⟨?_, recentStage_threshold, ?_, ?_⟩
  · intro hmeta
    exact classicStep_threshold hmeta
  · intro hlt
    exact ⟨classicStep_bound hlt, recentStage_bound hlt⟩
  · intro hv hm
    exact ⟨ingest_classic_run_buffers hv hm, recentRun_buffers hv hm,
      ingest_classic_run_no_drop hv hm, recentRun_no_drop hv hm⟩

/-- A state with 199 staged pairs, one short of the batch threshold. -/
def stBig : IngestState :=
  ⟨[], [], [], List.replicate 199 ("x", 0),
    List.replicate 199 ⟨"x", "", "", "", "", 0, PaperType.recent⟩, 0, 0⟩

/-- A fresh state with empty buffers and one pre-seeded processed id. -/
def stEmpty : IngestState := ⟨[], [], ["seed"], [], [], 0, 0⟩

/-- Fetch behaviour for the C5 witness. -/
def exFetch : String → Option Meta := fun _ => some ⟨"2005.14165", "t", "s", "a", "u"⟩

/-- A recent-mode record for the C5 witness. -/
def exPaper : ArxivPaper := ⟨"2301.00001v1", "t", "s", "a", "u"⟩

/-- Witness for C5: at 199 staged items the 200th staging flushes in both
modes; from a fresh state both runs end with empty buffers and every
processed id lands in both stores. -/
theorem batching_flush_contract_witness :
    exFetch "c" = some ⟨"2005.14165", "t", "s", "a", "u"⟩ ∧
    stBig.vectors_batch.length + 1 = BATCH_SIZE ∧
    classicStep exFetch (fun _ => 0) stBig "c" =
      flushBatches (stageClassic (fun _ => 0) stBig ⟨"2005.14165", "t", "s", "a", "u"⟩) ∧
    recentStage (fun _ => 0) stBig exPaper =
      flushBatches (stageRecent (fun _ => 0) stBig exPaper) ∧
    stEmpty.vectors_batch = [] ∧
    stEmpty.mongo_batch = [] ∧
    ((ingest_classic_papers_run exFetch (fun _ => 0) stEmpty ["c"]).vectors_batch = [] ∧
     (ingest_classic_papers_run exFetch (fun _ => 0) stEmpty ["c"]).mongo_batch = []) ∧
    ((recentRun (fun _ => 0) 27000 [[exPaper]] stEmpty).vectors_batch = [] ∧
     (recentRun (fun _ => 0) 27000 [[exPaper]] stEmpty).mongo_batch = []) ∧
    (∀ y ∈ (ingest_classic_papers_run exFetch (fun _ => 0) stEmpty ["c"]).processed,
      y ∈ stEmpty.processed ∨
      (y ∈ (ingest_classic_papers_run exFetch (fun _ => 0) stEmpty ["c"]).index.map
          Prod.fst ∧
       y ∈ (ingest_classic_papers_run exFetch (fun _ => 0) stEmpty ["c"]).store.map
          Doc._id)) ∧
    (∀ y ∈ (recentRun (fun _ => 0) 27000 [[exPaper]] stEmpty).processed,
      y ∈ stEmpty.processed ∨
      (y ∈ (recentRun (fun _ => 0) 27000 [[exPaper]] stEmpty).index.map Prod.fst ∧
       y ∈ (recentRun (fun _ => 0) 27000 [[exPaper]] stEmpty).store.map Doc._id)) := by
  have hbig := batching_flush_contract exFetch (fun _ => 0) stBig "c"
    ⟨"2005.14165", "t", "s", "a", "u"⟩ exPaper ["c"] [[exPaper]] 27000
  have hempty := batching_flush_contract exFetch (fun _ => 0) stEmpty "c"
    ⟨"2005.14165", "t", "s", "a", "u"⟩ exPaper ["c"] [[exPaper]] 27000
  have hlen : stBig.vectors_batch.length + 1 = BATCH_SIZE := by
    show (List.replicate 199 ("x", (0 : Vec))).length + 1 = BATCH_SIZE
    rw [List.length_replicate]
    rfl
  have h4 := hempty.2.2.2 rfl rfl
  exact ⟨rfl, hlen, (hbig.1 rfl).1 hlen, hbig.2.1.1 hlen, rfl, rfl,
    h4.1, h4.2.1, h4.2.2.1, h4.2.2.2⟩

/-- Fetch behaviour for the C3 counterexample: the candidate id
"2301.00001" resolves to the versioned clean id "2301.00001v1"
(`paper.entry_id.split("/")[-1]` routinely carries a version suffix the
candidate lacks). -/
def exFetchC : String → Option Meta := fun cid =>
  if cid = "2301.00001" then some ⟨"2301.00001v1", "t", "s", "a", "u"⟩ else none

/-- C3 counterexample: a document first ingested in recent mode (type
`recent`) is re-ingested by a later classic run whose candidate id differs
from the stored clean id, and the `$set` write overwrites its `type` to
`classic` — the type is not unchanged from its first-ever value. -/
theorem reingestion_changes_type_counterexample :
    (recentRun (fun _ => 0) 27000 [[⟨"2301.00001v1", "t", "s", "a", "u"⟩]]
        ⟨[], [], [], [], [], 0, 0⟩).store =
      [⟨"2301.00001v1", "t", "s", "a", "u", 0, PaperType.recent⟩] ∧
    (ingest_classic_papers_run exFetchC (fun _ => 0)
        ⟨[⟨"2301.00001v1", "t", "s", "a", "u", 0, PaperType.recent⟩],
         [("2301.00001v1", 0)], ["2301.00001v1"], [], [], 1, 0⟩
        ["2301.00001"]).store =
      [⟨"2301.00001v1", "t", "s", "a", "u", 1, PaperType.classic⟩] ∧
    PaperType.classic ≠ PaperType.recent :=
  ⟨by decide, by decide, by decide⟩

/-- A classic run whose candidates are all already processed is a no-op. -/
theorem ingest_classic_run_skip {fetchMeta : String → Option Meta}
    {embed : String → Vec} {st : IngestState} {ids : List String}
    (h : ∀ i ∈ ids, i ∈ st.processed) :
    ingest_classic_papers_run fetchMeta embed st ids = st := by
  unfold ingest_classic_papers_run
  show (if ids.filter (fun c => ¬ c ∈ st.processed) = [] then st else _) = st
  have hfil : ids.filter (fun c => ¬ c ∈ st.processed) = [] :=
    List.filter_eq_nil_iff.mpr (fun a ha => by simpa using h a ha)
  rw [hfil, if_pos rfl]

/-- C3 (amended): when the fetched clean id equals the candidate id, a
first classic ingestion of a new id writes exactly one document for it
(type `classic`, `ingested_at` = the write's clock) and keeps store ids
distinct; any repeat ingestion of that id — classic mode or recent mode —
is skipped outright by the processed-id check, leaving the document, its
type and its `ingested_at` (the latest applied write's time) unchanged. In
general it is each APPLIED upsert that refreshes `ingested_at` and sets
`type` to the writing mode's tag. -/
theorem ingest_same_id_twice (fetchMeta : String → Option Meta) (embed : String → Vec)
    (st : IngestState) (cid : String) (meta : Meta) (target : Nat) (p : ArxivPaper)
    (rest : List ArxivPaper)
    (hfetch : fetchMeta cid = some meta)
    (hclean : meta._id = cid)
    (hproc : ¬ cid ∈ st.processed)
    (hv : st.vectors_batch = [])
    (hm : st.mongo_batch = [])
    (hnodup : (st.store.map Doc._id).Nodup) :
    ((ingest_classic_papers_run fetchMeta embed st [cid]).store.filter
        (fun d => decide (d._id = cid)) =
      [⟨cid, meta.title, cleanSummary meta.summary, meta.authors, meta.pdf_url,
        st.clock, PaperType.classic⟩]) ∧
    ((ingest_classic_papers_run fetchMeta embed st [cid]).store.map Doc._id).Nodup ∧
    cid ∈ (ingest_classic_papers_run fetchMeta embed st [cid]).processed ∧
    ingest_classic_papers_run fetchMeta embed
      (ingest_classic_papers_run fetchMeta embed st [cid]) [cid] =
      ingest_classic_papers_run fetchMeta embed st [cid] ∧
    (p.doc_id = cid →
      recentWeek embed target (p :: rest)
          (ingest_classic_papers_run fetchMeta embed st [cid]) =
        recentWeek embed target rest
          (ingest_classic_papers_run fetchMeta embed st [cid])) ∧
    (∀ (store : List Doc) (op : UpdateOp), (store.map Doc._id).Nodup →
      (applyUpdateOne store op).filter (fun d => decide (d._id = op._id)) =
        [⟨op._id, op.title, op.summary, op.authors, op.pdf_url, op.ingested_at,
          op.type⟩]) := by
  have hfilter1 : [cid].filter (fun c => ¬ c ∈ st.processed) = [cid] := by
    rw [List.filter_cons, if_pos (by simpa using hproc)]
    rfl
  have hstage_len : (stageClassic embed st meta).vectors_batch.length = 1 := by
    rw [stageClassic_batch_length, hv]
    rfl
  have hstep : classicStep fetchMeta embed st cid = stageClassic embed st meta := by
    unfold classicStep
    rw [hfetch]
    show (if BATCH_SIZE ≤ (stageClassic embed st meta).vectors_batch.length then
      flushBatches (stageClassic embed st meta) else stageClassic embed st meta) = _
    rw [if_neg (by rw [hstage_len]; decide)]
  have hrun : ingest_classic_papers_run fetchMeta embed st [cid] =
      flushBatches (stageClassic embed st meta) := by
    unfold ingest_classic_papers_run
    show (if [cid].filter (fun c => ¬ c ∈ st.processed) = [] then st else _) = _
    rw [hfilter1, if_neg (by simp)]
    show (if ([cid].foldl (classicStep fetchMeta embed) st).vectors_batch ≠ [] then
      flushBatches ([cid].foldl (classicStep fetchMeta embed) st)
      else [cid].foldl (classicStep fetchMeta embed) st) = _
    have hfold : [cid].foldl (classicStep fetchMeta embed) st =
        classicStep fetchMeta embed st cid := rfl
    rw [hfold, hstep, if_pos ?_]
    intro hnil
    rw [hnil] at hstage_len
    simp at hstage_len
  have hmongo : (stageClassic embed st meta).mongo_batch =
      [⟨meta._id, meta.title, cleanSummary meta.summary, meta.authors, meta.pdf_url,
        st.clock, PaperType.classic⟩] := by
    show st.mongo_batch ++ [_] = _
    rw [hm]
    rfl
  have hstore1 : (ingest_classic_papers_run fetchMeta embed st [cid]).store =
      applyUpdateOne st.store
        ⟨meta._id, meta.title, cleanSummary meta.summary, meta.authors, meta.pdf_url,
          st.clock, PaperType.classic⟩ := by
    rw [hrun]
    show bulk_write st.store (stageClassic embed st meta).mongo_batch = _
    rw [hmongo]
    rfl
  have hprocessed1 : (ingest_classic_papers_run fetchMeta embed st [cid]).processed =
      st.processed ++ [meta._id] := by
    rw [hrun]
    rfl
  have hmem1 : cid ∈ (ingest_classic_papers_run fetchMeta embed st [cid]).processed := by
    rw [hprocessed1]
    exact List.mem_append_right _ (List.mem_singleton.mpr hclean.symm)
  refine ⟨?_, ?_, hmem1, ?_, ?_, fun store op h => applyUpdateOne_filter_eq op store h⟩
  · rw [hstore1, ← hclean]
    exact applyUpdateOne_filter_eq
      ⟨meta._id, meta.title, cleanSummary meta.summary, meta.authors, meta.pdf_url,
        st.clock, PaperType.classic⟩ st.store hnodup
  · rw [hstore1]
    exact bulk_write_nodup
      [⟨meta._id, meta.title, cleanSummary meta.summary, meta.authors, meta.pdf_url,
        st.clock, PaperType.classic⟩] st.store hnodup
  · exact ingest_classic_run_skip
      (fun i hi => by rw [List.mem_singleton.mp hi]; exact hmem1)
  · intro hpd
    rw [recentWeek, if_pos (by rw [hpd]; exact hmem1)]

/-- Clean-id fetch behaviour for the C3 witness: the fetched record carries
the candidate's own id. -/
def exFetchW : String → Option Meta := fun c => some ⟨c, "t", "s", "a", "u"⟩

/-- Witness for the amended C3 at a concrete clean-id fetch: ingesting
"2301.00001v1" once from a fresh state and then again (classic or recent
mode) leaves the single classic document written at clock 0. -/
theorem ingest_same_id_twice_witness :
    exFetchW "2301.00001v1" = some ⟨"2301.00001v1", "t", "s", "a", "u"⟩ ∧
    (⟨"2301.00001v1", "t", "s", "a", "u"⟩ : Meta)._id = "2301.00001v1" ∧
    (¬ "2301.00001v1" ∈ stEmpty.processed) ∧
    stEmpty.vectors_batch = [] ∧
    stEmpty.mongo_batch = [] ∧
    (stEmpty.store.map Doc._id).Nodup ∧
    ((ingest_classic_papers_run exFetchW (fun _ => 0) stEmpty
        ["2301.00001v1"]).store.filter
        (fun d => decide (d._id = "2301.00001v1")) =
      [⟨"2301.00001v1", "t", cleanSummary "s", "a", "u", stEmpty.clock,
        PaperType.classic⟩]) ∧
    ingest_classic_papers_run exFetchW (fun _ => 0)
        (ingest_classic_papers_run exFetchW (fun _ => 0) stEmpty ["2301.00001v1"])
        ["2301.00001v1"] =
      ingest_classic_papers_run exFetchW (fun _ => 0) stEmpty ["2301.00001v1"] ∧
    recentWeek (fun _ => 0) 27000 [exPaper]
        (ingest_classic_papers_run exFetchW (fun _ => 0) stEmpty ["2301.00001v1"]) =
      recentWeek (fun _ => 0) 27000 []
        (ingest_classic_papers_run exFetchW (fun _ => 0) stEmpty ["2301.00001v1"]) := by
  have h := ingest_same_id_twice exFetchW (fun _ => 0) stEmpty "2301.00001v1"
    ⟨"2301.00001v1", "t", "s", "a", "u"⟩ 27000 exPaper [] rfl rfl (by decide) rfl rfl
    List.nodup_nil
  exact ⟨rfl, rfl, by decide, rfl, rfl, List.nodup_nil, h.1, h.2.2.2.1,
    h.2.2.2.2.1 rfl⟩

end Srchive
